import Mathlib

/-!
Shallow embedding of the synthetic-section engine of an ELF linker
(`ELF/SyntheticSections.cpp`), together with proofs about the claims of
its specification.  Machine integers are modelled as `Nat` with explicit
`% 2^w` where overflow matters; ordered maps (`llvm::MapVector`) are
modelled as association lists whose `insert` keeps the first binding.
-/

namespace Lld

/-- Word width in bytes comes from the configuration; values written into
the image are truncated to `8 * wordsize` bits (`writeUint` writes either
a 32-bit or a 64-bit word). -/
def truncWord (wordsize : Nat) (v : Nat) : Nat :=
  v % 2 ^ (8 * wordsize)

/-- `llvm::MapVector::insert`: insert a (key, value) pair unless the key is
already bound; insertion order of keys is preserved. -/
def mvInsert [DecidableEq K] (m : List (K × V)) (e : K × V) : List (K × V) :=
  if m.any (fun p => p.1 = e.1) then m else m ++ [e]

/-- `llvm::set_union(Dst, Src)`: insert every entry of `Src` into `Dst`. -/
def mvUnion [DecidableEq K] (dst src : List (K × V)) : List (K × V) :=
  src.foldl mvInsert dst

/-- Key membership in an association list. -/
def mvCount [DecidableEq K] (m : List (K × V)) (k : K) : Bool :=
  m.any (fun p => p.1 = k)

end Lld

namespace Lld.MipsGot

/-- The configuration bits consumed by the MIPS GOT
(`Config->Wordsize`, `Config->MipsGotSize`, `Config->Pic`).
`headerEntriesNum` is the `MipsGotSection::HeaderEntriesNum` constant whose
declaration lives in the (absent) header; the spec only says that primary
indices start at `header_entries`, so it is kept as a parameter. -/
structure Cfg where
  wordsize : Nat
  mipsGotSize : Nat
  pic : Bool
  headerEntriesNum : Nat
deriving Repr, DecidableEq

/-- The symbol facts the GOT reads through the external symbol interface:
`isPreemptible()` and `getVA(addend)`.  `va` is the `uint64_t` base virtual
address of each symbol (symbols are identified by `Nat` ids). -/
structure Env where
  preempt : Nat → Bool
  va : Nat → Nat

/-- `SymbolBody::getVA(Addend)` as a 64-bit value. -/
def getVA (env : Env) (s : Nat) (addend : Int) : Nat :=
  (((env.va s : Int) + addend) % (2 ^ 64 : Int)).toNat

/-- An output section as the GOT sees it: identity, its `Size`, and its
address `Addr` (used only at write time). -/
structure OutSec where
  id : Nat
  size : Nat
  addr : Nat
deriving Repr, DecidableEq

/-- `MipsGotSection::FileGot`: one per-input-file GOT partition.  Each map
carries the GOT index of the entry in its value slot (filled by `build`). -/
structure FileGot where
  fileId : Nat
  startIndex : Nat := 0
  pageIndexMap : List (OutSec × Nat) := []
  local16 : List ((Nat × Int) × Nat) := []
  local32 : List ((Nat × Int) × Nat) := []
  global : List (Nat × Nat) := []
  relocs : List (Nat × Nat) := []
  tls : List (Nat × Nat) := []
  dynTlsSymbols : List (Option Nat × Nat) := []
deriving Repr, DecidableEq

/-- `getMipsPageAddr(Addr) = (Addr + 0x8000) & ~0xffff`. -/
def getMipsPageAddr (addr : Nat) : Nat :=
  ((addr + 0x8000) / 0x10000) * 0x10000

/-- `getMipsPageCount(Size) = (Size + 0xfffe) / 0xffff + 1`. -/
def getMipsPageCount (size : Nat) : Nat :=
  (size + 0xfffe) / 0xffff + 1

/-- `FileGot::getPageEntriesNum`. -/
def FileGot.getPageEntriesNum (g : FileGot) : Nat :=
  g.pageIndexMap.foldl (fun n p => n + getMipsPageCount p.1.size) 0

/-- `FileGot::getEntriesNum`. -/
def FileGot.getEntriesNum (g : FileGot) : Nat :=
  g.getPageEntriesNum + g.local16.length + g.global.length + g.relocs.length +
    g.tls.length + g.dynTlsSymbols.length * 2

/-- `FileGot::getIndexEntriesNum`: number of entries that must stay
addressable by a 16-bit GOT index.  Reloc-only entries are counted only
when TLS entries (which are allocated after them) exist. -/
def FileGot.getIndexEntriesNum (g : FileGot) : Nat :=
  let count := g.getPageEntriesNum + g.local16.length + g.global.length
  if g.tls ≠ [] ∨ g.dynTlsSymbols ≠ [] then
    count + g.relocs.length + g.tls.length + g.dynTlsSymbols.length * 2
  else count

/-- `MipsGotSection::tryMergeGots`: union `Src` into a copy of `Dst` and
commit it unless the 16-bit-index entry count would overflow
`MipsGotSize`.  Returns the merged partition on success. -/
def tryMergeGots (cfg : Cfg) (dst src : FileGot) (isPrimary : Bool) :
    Option FileGot :=
  let tmp : FileGot :=
    { dst with
      pageIndexMap := mvUnion dst.pageIndexMap src.pageIndexMap
      local16 := mvUnion dst.local16 src.local16
      global := mvUnion dst.global src.global
      relocs := mvUnion dst.relocs src.relocs
      tls := mvUnion dst.tls src.tls
      dynTlsSymbols := mvUnion dst.dynTlsSymbols src.dynTlsSymbols }
  let count := (if isPrimary then cfg.headerEntriesNum else 0) +
    tmp.getIndexEntriesNum
  if count * cfg.wordsize > cfg.mipsGotSize then none else some tmp

/-- `build` step 1: move non-preemptible symbols from `Global` to
`Local16` (with addend 0) and drop them from `Global`. -/
def buildStep1 (env : Env) (g : FileGot) : FileGot :=
  { g with
    local16 := g.global.foldl
      (fun acc p => if env.preempt p.1 then acc else mvInsert acc ((p.1, 0), 0))
      g.local16
    global := g.global.filter (fun p => env.preempt p.1) }

/-- `build` step 2: drop reloc-only entries that also appear in `Global`
and fold `Local32` into `Local16`. -/
def buildStep2 (g : FileGot) : FileGot :=
  { g with
    relocs := g.relocs.filter (fun p => ¬ mvCount g.global p.1)
    local16 := mvUnion g.local16 g.local32
    local32 := [] }

/-- Steps 1–2 applied to every per-file GOT. -/
def prepGots (env : Env) (gots : List FileGot) : List FileGot :=
  gots.map (fun g => buildStep2 (buildStep1 env g))

/-- `build` step 3, first half: the future primary GOT collects the union
of every partition's `Global` and reloc-only entries into its own
reloc-only set. -/
def collectRelocs (gots : List FileGot) : List (Nat × Nat) :=
  gots.foldl (fun acc g => mvUnion (mvUnion acc g.global) g.relocs) []

/-- `build` step 3, second half: every source partition's reloc-only set is
cleared before merging. -/
def clearRelocs (g : FileGot) : FileGot := { g with relocs := [] }

/-- The merge loop of `build`: try to merge each source GOT into the last
destination partition, opening a fresh partition (seeded with the source
itself, unchecked) whenever the merge would overflow.  `done` holds the
closed partitions, `cur` the one still accepting merges; `cur` is the
primary exactly when `done` is empty. -/
def mergeLoop (cfg : Cfg) : List FileGot → FileGot → List FileGot →
    List FileGot
  | done, cur, [] => done ++ [cur]
  | done, cur, src :: rest =>
      match tryMergeGots cfg cur src done.isEmpty with
      | some merged => mergeLoop cfg done merged rest
      | none => mergeLoop cfg (done ++ [cur]) src rest

/-- The primary partition the merge loop starts from: an empty `FileGot`
holding the collected reloc-only entries. -/
def primarySeed (gots : List FileGot) : FileGot :=
  { fileId := 0, relocs := collectRelocs gots }

/-- `build` step 5: subtract from the primary's reloc-only set the globals
already present in the primary. -/
def reduceRelocs (g : FileGot) : FileGot :=
  { g with relocs := g.relocs.filter (fun p => ¬ mvCount g.global p.1) }

/-- Assign consecutive GOT indices to the entries of one association list,
starting at `i`; `step` gives the number of slots an entry occupies. -/
def assignSeq (step : K → Nat) : List (K × Nat) → Nat → List (K × Nat) × Nat
  | [], i => ([], i)
  | (k, _) :: rest, i =>
      let r := assignSeq step rest (i + step k)
      ((k, i) :: r.1, r.2)

/-- `build` step 6 for one partition: page entries first (one block per
worst-case 64 KiB page of each referenced output section), then local16,
global, reloc-only, TLS and dynamic-TLS entries (two slots each). -/
def assignGot (isPrimary : Bool) (g : FileGot) (i : Nat) : FileGot × Nat :=
  let pages := assignSeq (fun s => getMipsPageCount s.size) g.pageIndexMap i
  let l16 := assignSeq (fun _ => 1) g.local16 pages.2
  let glob := assignSeq (fun _ => 1) g.global l16.2
  let rel := assignSeq (fun _ => 1) g.relocs glob.2
  let tls := assignSeq (fun _ => 1) g.tls rel.2
  let dyn := assignSeq (fun _ => 2) g.dynTlsSymbols tls.2
  ({ g with
      startIndex := if isPrimary then 0 else i
      pageIndexMap := pages.1, local16 := l16.1, global := glob.1
      relocs := rel.1, tls := tls.1, dynTlsSymbols := dyn.1 },
   dyn.2)

/-- `build` step 6 over all partitions: the running index is threaded
left to right, and only the first partition is the primary. -/
def assignLoop (isPrim : Bool) (i : Nat) : List FileGot → List FileGot
  | [] => []
  | g :: rest =>
      let r := assignGot isPrim g i
      r.1 :: assignLoop false r.2 rest

/-- `build` step 6 over all partitions: indices start at
`HeaderEntriesNum` and run consecutively across partitions. -/
def assignIndices (cfg : Cfg) (gots : List FileGot) : List FileGot :=
  assignLoop true cfg.headerEntriesNum gots

/-- The bound `tryMergeGots` enforces when it commits a merge: header
entries (for the primary) plus the partition's 16-bit-index entry count,
in bytes, within `MipsGotSize`. -/
def boundOK (cfg : Cfg) (isPrimary : Bool) (g : FileGot) : Prop :=
  ((if isPrimary then cfg.headerEntriesNum else 0) + g.getIndexEntriesNum) *
    cfg.wordsize ≤ cfg.mipsGotSize

/-- `g` has the same entry structure as `h` except for possibly fewer
reloc-only entries: same referenced output sections (hence the same page
entry count) and the same numbers of local16, global, TLS and dynamic-TLS
entries. -/
def cntLe (g h : FileGot) : Prop :=
  g.pageIndexMap.map Prod.fst = h.pageIndexMap.map Prod.fst ∧
  g.local16.length = h.local16.length ∧
  g.global.length = h.global.length ∧
  g.relocs.length ≤ h.relocs.length ∧
  g.tls.length = h.tls.length ∧
  g.dynTlsSymbols.length = h.dynTlsSymbols.length

/-- `MipsGotSection::build` up to index assignment: returns the final list
of partitions (the primary first).  The trailing `SymbolBody::GotIndex`
update and the dynamic-relocation creation (`buildDynRelocs`) read the
partitions but do not change them. -/
def build (cfg : Cfg) (env : Env) (gots : List FileGot) : List FileGot :=
  if gots = [] then [] else
  let prepped := prepGots env gots
  let seed := primarySeed prepped
  let merged := mergeLoop cfg [] seed (prepped.map clearRelocs)
  let reduced :=
    match merged with
    | [] => []
    | prim :: rest => reduceRelocs prim :: rest
  assignIndices cfg reduced

/-- `MipsGotSection::updateAllocSize` (also `finalizeContents`):
`Size = (HeaderEntriesNum + Σ partition entries) × wordsize`. -/
def updateAllocSize (cfg : Cfg) (gots : List FileGot) : Nat :=
  gots.foldl (fun s g => s + g.getEntriesNum * cfg.wordsize)
    (cfg.headerEntriesNum * cfg.wordsize)

/-- The MIPS dynamic-relocation kinds referenced by `build`
(`Target->TlsGotRel`, `Target->TlsModuleIndexRel`, `Target->TlsOffsetRel`,
`Target->RelativeRel`). -/
inductive RelTag
  | tlsGotRel
  | tlsModuleIndexRel
  | tlsOffsetRel
  | relativeRel
deriving Repr, DecidableEq

/-- One dynamic relocation pushed to `In<ELFT>::RelaDyn->addReloc` by
`MipsGotSection::build` (type, offset in the GOT, symbol, `UseSymVA`,
output section for page relocations, addend). -/
structure MipsDynReloc where
  type : RelTag
  offset : Nat
  useSymVA : Bool
  sym : Option Nat
  outSec : Option OutSec
  addend : Int
deriving Repr, DecidableEq

/-- The trailing part of `build`: dynamic relocations for the (indexed)
partitions.  TLS relocations are created for every partition; `RELATIVE`
relocations for globals only in non-primary partitions, and for page and
local entries only in non-primary partitions when the link is PIC. -/
def buildDynRelocs (cfg : Cfg) (env : Env) (gots : List FileGot) :
    List MipsDynReloc :=
  (gots.foldl
    (fun (acc : List MipsDynReloc × Bool) g =>
      let tlsRels := g.tls.foldl
        (fun rs p =>
          if env.preempt p.1 then
            rs ++ [⟨.tlsGotRel, p.2 * cfg.wordsize, false, some p.1, none, 0⟩]
          else rs) []
      let dynTlsRels := g.dynTlsSymbols.foldl
        (fun rs p =>
          match p.1 with
          | none =>
              if cfg.pic then
                rs ++ [⟨.tlsModuleIndexRel, p.2 * cfg.wordsize, false, none,
                        none, 0⟩]
              else rs
          | some s =>
              if env.preempt s then
                rs ++ [⟨.tlsModuleIndexRel, p.2 * cfg.wordsize, false, some s,
                        none, 0⟩,
                       ⟨.tlsOffsetRel, (p.2 + 1) * cfg.wordsize, false, some s,
                        none, 0⟩]
              else rs) []
      let nonTls :=
        if acc.2 then [] else
        let globRels := g.global.map
          (fun p => (⟨.relativeRel, p.2 * cfg.wordsize, false, some p.1, none,
                      0⟩ : MipsDynReloc))
        if ¬ cfg.pic then globRels else
        let pageRels := g.pageIndexMap.foldl
          (fun rs L =>
            rs ++ (List.range (getMipsPageCount L.1.size)).map
              (fun pi => (⟨.relativeRel, (L.2 + pi) * cfg.wordsize, false,
                          none, some L.1, (pi * 0x10000 : Nat)⟩ :
                          MipsDynReloc)))
          []
        let localRels := g.local16.map
          (fun p => (⟨.relativeRel, p.2 * cfg.wordsize, true, some p.1.1,
                      none, p.1.2⟩ : MipsDynReloc))
        globRels ++ pageRels ++ localRels
      (acc.1 ++ tlsRels ++ dynTlsRels ++ nonTls, false))
    ([], true)).1

/-- The page-address write events of one `PageIndexMap` entry:
`FirstPageAddr + PI * 0x10000` for each of its 64 KiB pages. -/
def pageSlotWrites (cfg : Cfg) (L : OutSec × Nat) : List (Nat × Nat) :=
  (List.range (getMipsPageCount L.1.size)).map
    (fun pi => ((L.2 + pi) * cfg.wordsize,
      truncWord cfg.wordsize (getMipsPageAddr L.1.addr + pi * 0x10000)))

/-- The write events of one dynamic-TLS pair: the module-index slot gets 1
when there is no symbol and the link is not PIC, and a non-preemptible
symbol's pair gets (1, VA − 0x8000); otherwise both slots are left to the
dynamic relocations (zero). -/
def dynTlsSlotWrites (cfg : Cfg) (env : Env) (p : Option Nat × Nat) :
    List (Nat × Nat) :=
  match p.1 with
  | none => if ¬ cfg.pic then [(p.2 * cfg.wordsize, 1)] else []
  | some s =>
      if ¬ env.preempt s then
        [(p.2 * cfg.wordsize, 1),
         ((p.2 + 1) * cfg.wordsize,
          truncWord cfg.wordsize ((getVA env s 0 + 2 ^ 64 - 0x8000) % 2 ^ 64))]
      else []

/-- The value `writeTo` stores in a TLS slot: the symbol's VA when a
dynamic relocation will patch the slot (preemptible), the VA adjusted by
the thread-pointer offset 0x7000 otherwise. -/
def tlsSlotValue (cfg : Cfg) (env : Env) (s : Nat) : Nat :=
  truncWord cfg.wordsize
    (if env.preempt s then getVA env s 0
     else (getVA env s 0 + 2 ^ 64 - 0x7000) % 2 ^ 64)

/-- The write events of `MipsGotSection::writeTo` for one partition, as
(byte offset, value) pairs.  `isPrimary` is `&G == &Gots.front()`:
global entries are written out only in the primary GOT. -/
def gotWrites (cfg : Cfg) (env : Env) (isPrimary : Bool) (g : FileGot) :
    List (Nat × Nat) :=
  let w := cfg.wordsize
  let pageWrites := g.pageIndexMap.flatMap (pageSlotWrites cfg)
  let local16Writes := g.local16.map
    (fun p => (p.2 * w, truncWord w (getVA env p.1.1 p.1.2)))
  let globalWrites :=
    if isPrimary then
      g.global.map (fun p => (p.2 * w, truncWord w (getVA env p.1 0)))
    else []
  let relocWrites := g.relocs.map
    (fun p => (p.2 * w, truncWord w (getVA env p.1 0)))
  let tlsWrites := g.tls.map (fun p => (p.2 * w, tlsSlotValue cfg env p.1))
  let dynTlsWrites := g.dynTlsSymbols.flatMap (dynTlsSlotWrites cfg env)
  pageWrites ++ local16Writes ++ globalWrites ++ relocWrites ++ tlsWrites ++
    dynTlsWrites

/-- `MipsGotSection::writeTo`: the MSB of the second GOT slot is set, then
every partition's entries are written (the primary is the first). -/
def mipsGotWrites (cfg : Cfg) (env : Env) (gots : List FileGot) :
    List (Nat × Nat) :=
  let msb := [(cfg.wordsize, truncWord cfg.wordsize
    (2 ^ (cfg.wordsize * 8 - 1)))]
  match gots with
  | [] => msb
  | prim :: rest =>
      msb ++ gotWrites cfg env true prim ++
        (rest.map (gotWrites cfg env false)).flatten

/-- Reading a word back from the serialised buffer: the last write at a
byte offset wins, untouched bytes are zero. -/
def bufGet (writes : List (Nat × Nat)) (off : Nat) : Nat :=
  writes.foldl (fun acc p => if p.1 = off then p.2 else acc) 0

end Lld.MipsGot

namespace Lld

/-- Insert `x` (an element that precedes all of `l` in the original
order) into the already sorted `l`: skip the elements strictly smaller
than `x` and stop at the first element that is not, so that `x` lands in
front of every element it ties with. -/
def sInsert (lt : α → α → Bool) (x : α) : List α → List α
  | [] => [x]
  | y :: ys => if lt y x then y :: sInsert lt x ys else x :: y :: ys

/-- `std::stable_sort` with a strict comparator `lt`: a stable sort whose
output is non-decreasing under `lt` (no later element is `lt` an earlier
one, and ties keep their original order). -/
def stableSortBy (lt : α → α → Bool) : List α → List α
  | [] => []
  | x :: xs => sInsert lt x (stableSortBy lt xs)

end Lld

namespace Lld.Reloc

/-- The configuration read by the relocation writer: `Config->IsRela` and
the target's `RelativeRel` relocation type code. -/
structure Cfg where
  isRela : Bool
  relativeRel : Nat
deriving Repr, DecidableEq

/-- External symbol/section state consumed during serialisation:
`DynsymIndex` of each symbol, symbol VAs, output-section addresses and
in-section offset translation. -/
structure Env where
  dynsymIndex : Nat → Nat
  va : Nat → Int
  secAddr : Nat → Nat
  secOff : Nat → Nat → Nat
  outSecAddr : Nat → Nat

/-- `DynamicReloc`: (type, input section, offset, `UseSymVA`, symbol,
addend, optional output section for MIPS page addends). -/
structure DynamicReloc where
  type : Nat
  secId : Nat
  offsetInSec : Nat
  useSymVA : Bool
  sym : Option Nat
  addend : Int
  outSec : Option Nat := none
deriving Repr, DecidableEq

/-- `DynamicReloc::getOffset`. -/
def DynamicReloc.getOffset (env : Env) (r : DynamicReloc) : Nat :=
  env.secAddr r.secId + env.secOff r.secId r.offsetInSec

/-- `DynamicReloc::getSymIndex`: the symbol's dynsym index, or 0 when the
relocation materialises the symbol's VA instead. -/
def DynamicReloc.getSymIndex (env : Env) (r : DynamicReloc) : Nat :=
  match r.sym with
  | some s => if ¬ r.useSymVA then env.dynsymIndex s else 0
  | none => 0

/-- `DynamicReloc::getAddend`, with the MIPS page-address correction. -/
def DynamicReloc.getAddend (env : Env) (r : DynamicReloc) : Int :=
  if r.useSymVA then
    match r.sym with
    | some s => env.va s + r.addend
    | none => r.addend
  else
    match r.outSec with
    | none => r.addend
    | some os => (Lld.MipsGot.getMipsPageAddr (env.outSecAddr os) : Int) +
        r.addend

/-- One serialised `Elf_Rel[a]` record (the addend field is only written
when the output uses RELA). -/
structure OutRel where
  rOffset : Nat
  type : Nat
  symIdx : Nat
  rAddend : Int
deriving Repr, DecidableEq

/-- Serialisation of one entry in `RelocationSection::writeTo`. -/
def serialize (cfg : Cfg) (env : Env) (r : DynamicReloc) : OutRel :=
  { rOffset := r.getOffset env
    type := r.type
    symIdx := r.getSymIndex env
    rAddend := if cfg.isRela then r.getAddend env else 0 }

/-- `compRelocations`: RELATIVE relocations first, then by symbol index. -/
def compRelocations (cfg : Cfg) (a b : OutRel) : Bool :=
  let aIsRel := a.type = cfg.relativeRel
  let bIsRel := b.type = cfg.relativeRel
  if aIsRel ≠ bIsRel then aIsRel else a.symIdx < b.symIdx

/-- `RelocationSection::writeTo`: serialise every entry in insertion
order, then stable-sort the buffer with `compRelocations` when the section
was constructed with `Sort=true`. -/
def writeTo (cfg : Cfg) (env : Env) (sort : Bool)
    (relocs : List DynamicReloc) : List OutRel :=
  let recs := relocs.map (serialize cfg env)
  if sort then Lld.stableSortBy (compRelocations cfg) recs else recs

/-- The sort key `compRelocations` factors through: group (RELATIVE
first), then symbol index. -/
def sortKey (cfg : Cfg) (r : OutRel) : Nat × Nat :=
  (if r.type = cfg.relativeRel then 0 else 1, r.symIdx)

end Lld.Reloc

namespace Lld.SymTab

/-- The symbol facts the symbol tables read: identity (object pointers are
modelled by ids), `Type == STT_SECTION`, the output section of the
defining section, `isUndefined()`, the name bytes, and the MIPS GOT facts
`isInGot()` / `GotIndex`. -/
structure SymBody where
  id : Nat
  isSection : Bool
  outSec : Nat
  undef : Bool
  name : List Nat
  inGot : Bool
  gotIndex : Nat
deriving Repr, DecidableEq

/-- `SymbolTableEntry`: a symbol body plus its string-table offset. -/
structure SymbolTableEntry where
  body : SymBody
  strTabOffset : Nat
deriving Repr, DecidableEq

/-- The predicate of the `find_if` in
`SymbolTableBaseSection::getSymbolIndex`: either the same symbol, or (for
`-r`) two section symbols mapped to the same output section. -/
def entryMatches (b : SymBody) (e : SymbolTableEntry) : Bool :=
  if e.body.id = b.id then true
  else if b.isSection ∧ e.body.isSection then e.body.outSec = b.outSec
  else false

/-- `SymbolTableBaseSection::getSymbolIndex`: 1-based position of the
first matching entry, or 0 (the null entry) when the symbol is absent. -/
def getSymbolIndex (syms : List SymbolTableEntry) (b : SymBody) : Nat :=
  match syms.findIdx? (entryMatches b) with
  | none => 0
  | some i => i + 1

/-- Modelled from the spec: `SymbolTableBaseSection::getNumSymbols` is
declared only in the class header, which is not among the sources; per
§4.7 the table carries a leading null entry and dynsym indices start
at 1, so the symbol count is one more than the entry count. -/
def getNumSymbols (v : List SymbolTableEntry) : Nat := v.length + 1

/-- `sortMipsSymbols`: entries whose symbols are not in the GOT first (in
arbitrary order), then by ascending `GotIndex`. -/
def sortMipsLt (L R : SymbolTableEntry) : Bool :=
  if ¬ L.body.inGot ∨ ¬ R.body.inGot then ¬ L.body.inGot
  else L.body.gotIndex < R.body.gotIndex

end Lld.SymTab

namespace Lld.GnuHash

open Lld.SymTab

/-- `hashGnu`: the classic djb hash, 32-bit. -/
def hashGnu (name : List Nat) : Nat :=
  name.foldl (fun h c => ((h <<< 5) + h + c) % 2 ^ 32) 5381

/-- The fixed descending list of `getBucketSize`: the largest primes not
greater than `2^n + 1`. -/
def bucketSizeList : List Nat :=
  [131071, 65521, 32749, 16381, 8191, 4093, 2039, 1021, 509,
   251, 127, 61, 31, 13, 7, 3, 1]

/-- `getBucketSize(NumSymbols)`: the first list element that is
`≤ NumSymbols`, or 0. -/
def getBucketSize (numSymbols : Nat) : Nat :=
  match bucketSizeList.find? (fun n => n ≤ numSymbols) with
  | some n => n
  | none => 0

/-- `llvm::NextPowerOf2(A)`: the smallest power of two strictly greater
than `A` (so 1 for 0), by the or-shift cascade of the original (for
64-bit operands). -/
def nextPowerOf2 (a : Nat) : Nat :=
  let a := a ||| (a >>> 1)
  let a := a ||| (a >>> 2)
  let a := a ||| (a >>> 4)
  let a := a ||| (a >>> 8)
  let a := a ||| (a >>> 16)
  let a := a ||| (a >>> 32)
  a + 1

/-- A `GnuHashTableSection::Entry`. -/
structure GnuEntry where
  body : SymBody
  strTabOffset : Nat
  hash : Nat
deriving Repr, DecidableEq

/-- The mutable state of the GNU hash table section. -/
structure GnuHashState where
  symbols : List GnuEntry := []
  nBuckets : Nat := 0
  maskWords : Nat := 0
  size : Nat := 0
deriving Repr, DecidableEq

/-- `GnuHashTableSection::addSymbols`: stable-partition the dynsym vector
with undefined symbols first, append the remaining (hashed) symbols to the
table's symbol list, recompute `NBuckets`, stable-sort the symbol list by
`hash % NBuckets`, and rewrite the vector as undefined symbols followed by
the table's (sorted) symbols. -/
def addSymbols (st : GnuHashState) (v : List SymbolTableEntry) :
    GnuHashState × List SymbolTableEntry :=
  let front := v.filter (fun e => e.body.undef)
  let tail := v.filter (fun e => ¬ e.body.undef)
  if tail.isEmpty then (st, v)
  else
    let syms := st.symbols ++
      tail.map (fun e => ⟨e.body, e.strTabOffset, hashGnu e.body.name⟩)
    let nB := getBucketSize syms.length
    let sorted := Lld.stableSortBy
      (fun (L R : GnuEntry) => L.hash % nB < R.hash % nB) syms
    ({ st with symbols := sorted, nBuckets := nB },
     front ++ sorted.map (fun e => ⟨e.body, e.strTabOffset⟩))

/-- `GnuHashTableSection::finalizeContents`: compute `MaskWords` and the
section size (16-byte header, Bloom filter, buckets, hash values). -/
def finalizeContents (wordsize : Nat) (st : GnuHashState) : GnuHashState :=
  let mw :=
    if st.symbols.isEmpty then 1
    else nextPowerOf2 ((st.symbols.length - 1) / wordsize)
  { st with
    maskWords := mw
    size := 16 + wordsize * mw + st.nBuckets * 4 + st.symbols.length * 4 }

/-- The `symoffset` field written by `GnuHashTableSection::writeTo`:
`DynSymTab->getNumSymbols() - Symbols.size()`. -/
def symOffset (st : GnuHashState) (v : List SymbolTableEntry) : Nat :=
  getNumSymbols v - st.symbols.length

/-- `SymbolTableBaseSection::finalizeContents` for a `.dynsym`: delegate
reordering to the GNU hash table when present, else stable-sort by MIPS
GOT order on MIPS; dynsym indices are then 1-based list positions. -/
def dynsymFinalize (gnuPresent isMips : Bool) (gnu : GnuHashState)
    (v : List SymbolTableEntry) : GnuHashState × List SymbolTableEntry :=
  if gnuPresent then addSymbols gnu v
  else if isMips then (gnu, Lld.stableSortBy sortMipsLt v)
  else (gnu, v)

/-- Modelled from the spec: the dynamic symbol table's size; per §4.7 the
on-disk table is the null entry plus one `Elf_Sym` (24 bytes for ELF64,
16 for ELF32) per entry; `SymbolTableSection::writeTo` skips one
`Elf_Sym` and then writes each entry. -/
def dynsymSize (is64 : Bool) (v : List SymbolTableEntry) : Nat :=
  (v.length + 1) * (if is64 then 24 else 16)

end Lld.GnuHash

namespace Lld.Dyn

/-- The external facts `DynamicSection<ELFT>::finalizeContents` reads when
assembling the tag list (sizes and presence of the other finalised
sections, configuration bits, and the MIPS extras). -/
structure Env where
  isRela : Bool
  is64 : Bool
  emachineIsMips : Bool
  relaDynOutSize : Nat
  relativeRelocCount : Nat
  zCombreloc : Bool
  relaPltOutSize : Nat
  zText : Bool
  hasGnuHashTab : Bool
  hasHashTab : Bool
  hasPreinitArray : Bool
  hasInitArray : Bool
  hasFiniArray : Bool
  hasInitSym : Bool
  hasFiniSym : Bool
  verNeedNum : Nat
  hasVerDef : Bool
  hasMipsRldMap : Bool
deriving Repr, DecidableEq

/-- The tags appended by `DynamicSection<ELFT>::finalizeContents`, in
order (values carried by the entries are resolved from the referenced
sections at write time and are not needed here). -/
def lateTags (e : Env) : List Nat :=
  (if e.relaDynOutSize > 0 then
    (if e.isRela then [7, 8, 9] else [17, 18, 19]) ++
      (if ¬ e.emachineIsMips ∧ e.zCombreloc ∧ e.relativeRelocCount ≠ 0 then
        [if e.isRela then 0x6ffffff9 else 0x6ffffffa]
      else [])
  else []) ++
  (if e.relaPltOutSize > 0 then
    [23, 2, if e.emachineIsMips then 0x70000032 else 3, 20]
  else []) ++
  [6, 11, 5, 10] ++
  (if ¬ e.zText then [22] else []) ++
  (if e.hasGnuHashTab then [0x6ffffef5] else []) ++
  (if e.hasHashTab then [4] else []) ++
  (if e.hasPreinitArray then [32, 33] else []) ++
  (if e.hasInitArray then [25, 27] else []) ++
  (if e.hasFiniArray then [26, 28] else []) ++
  (if e.hasInitSym then [12] else []) ++
  (if e.hasFiniSym then [13] else []) ++
  (if e.verNeedNum ≠ 0 ∨ e.hasVerDef then [0x6ffffff0] else []) ++
  (if e.hasVerDef then [0x6ffffffc, 0x6ffffffd] else []) ++
  (if e.verNeedNum ≠ 0 then [0x6ffffffe, 0x6fffffff] else []) ++
  (if e.emachineIsMips then
    [0x70000001, 0x70000005, 0x70000006, 0x70000011, 0x7000000a,
     0x70000013, 3] ++ (if e.hasMipsRldMap then [0x70000016] else [])
  else [])

/-- The mutable state of the dynamic section: the accumulated entry tags
(the constructor's early entries included) and the computed size. -/
structure State where
  entries : List Nat
  size : Nat := 0
deriving Repr, DecidableEq

/-- `Entsize` of `.dynamic`: 16 bytes on ELF64, 8 on ELF32. -/
def entsize (e : Env) : Nat := if e.is64 then 16 else 8

/-- `DynamicSection<ELFT>::finalizeContents`: guarded by `Size != 0`;
appends the late entries and sets `Size = (entries + 1) × entsize` (+1
for the trailing `DT_NULL`). -/
def finalizeContents (e : Env) (st : State) : State :=
  if st.size ≠ 0 then st
  else
    let entries := st.entries ++ lateTags e
    { entries := entries, size := (entries.length + 1) * entsize e }

end Lld.Dyn

namespace Lld.Merge

/-- A piece of a mergeable input section: its live flag and data bytes. -/
structure Piece where
  live : Bool
  data : List Nat
deriving Repr, DecidableEq

/-- A mergeable input section. -/
structure MSec where
  pieces : List Piece
deriving Repr, DecidableEq

/-- `llvm::StringTableBuilder`, abstracted to the list of datas added to
it (the builder itself is an external library component; its reported
size is modelled as the total size of the added datas). -/
structure Builder where
  added : List (List Nat)
deriving Repr, DecidableEq

/-- The modelled `StringTableBuilder::getSize`. -/
def Builder.getSize (b : Builder) : Nat :=
  b.added.foldl (fun n d => n + d.length) 0

/-- The mutable state of a `MergeSyntheticSection`. -/
structure State where
  sections : List MSec
  flagsStrings : Bool
  optimize : Nat
  finalized : Bool := false
  builder : Builder := ⟨[]⟩
deriving Repr, DecidableEq

/-- `MergeSyntheticSection::shouldTailMerge`. -/
def shouldTailMerge (st : State) : Bool :=
  st.flagsStrings && decide (st.optimize ≥ 2)

/-- The live datas of all pieces, in input order: both finalize paths add
exactly these to the builder. -/
def liveData (st : State) : List (List Nat) :=
  (st.sections.map (fun s =>
    (s.pieces.filter (fun p => p.live)).map (fun p => p.data))).flatten

/-- `MergeSyntheticSection::finalizeTailMerge`: add every live piece to
the builder, run the builder's (external) tail-merging `finalize`, and
back-fill the piece offsets from the builder (the offsets live in the
external builder and the input sections). -/
def finalizeTailMerge (st : State) : State :=
  { st with builder := ⟨st.builder.added ++ liveData st⟩ }

/-- `MergeSyntheticSection::finalizeNoTailMerge`: add every live piece to
the builder, recording each piece's offset as it is added, then
`finalizeInOrder`. -/
def finalizeNoTailMerge (st : State) : State :=
  { st with builder := ⟨st.builder.added ++ liveData st⟩ }

/-- `MergeSyntheticSection::finalizeContents`: guarded by the `Finalized`
flag; runs the tail-merge or in-order path once. -/
def finalizeContents (st : State) : State :=
  if st.finalized then st
  else if shouldTailMerge st then { finalizeTailMerge st with finalized := true }
  else { finalizeNoTailMerge st with finalized := true }

/-- `MergeSyntheticSection::getSize`: finalizes on demand (the `const_cast`
in the source), then reports the builder's size.  Returns the reported
size together with the state the call leaves behind. -/
def getSize (st : State) : Nat × State :=
  let st' := finalizeContents st
  (st'.builder.getSize, st')

end Lld.Merge

namespace Lld.GdbIndex

/-- The outcome of parsing one live `.debug_info` input section (the DWARF
reader is an external collaborator): its CU list contributions, address
area entries and the (name, descriptor-and-CU) pairs already combined as
`(descriptor << 24) | cu_index`. -/
structure GdbInput where
  cus : List (Nat × Nat)
  addrs : List (Nat × Nat × Nat)
  nameVals : List (List Nat × Nat)
deriving Repr, DecidableEq

/-- Insert a value into a `std::set<uint32_t>` modelled as a sorted
duplicate-free list. -/
def setInsert (s : List Nat) (v : Nat) : List Nat :=
  if v ∈ s then s else (s ++ [v]).mergeSort (fun a b => a ≤ b)

/-- The mutable state of the `.gdb_index` section. -/
structure State where
  inputs : List GdbInput
  finalized : Bool := false
  compilationUnits : List (Nat × Nat) := []
  addressArea : List (Nat × Nat × Nat) := []
  symbols : List (List Nat × List Nat) := []
  cuTypesOffset : Nat := 0
  symTabOffset : Nat := 0
  constantPoolOffset : Nat := 0
  stringPoolOffset : Nat := 0
deriving Repr, DecidableEq

/-- Header and record sizes (`CuListOffset` is the 24-byte header of
`writeTo`; a CU record is two 64-bit words, an address entry is two
64-bit words plus a 32-bit CU index, a symbol-table slot is two 32-bit
words and the offset type is 32-bit). -/
def cuListOffset : Nat := 24

/-- `readDwarf` for one input: append the CU list and address area, and
merge the names into the deduplicating symbol table, accumulating each
name's CU-vector set. -/
def readDwarf (st : State) (inp : GdbInput) : State :=
  { st with
    compilationUnits := st.compilationUnits ++ inp.cus
    addressArea := st.addressArea ++ inp.addrs
    symbols := inp.nameVals.foldl
      (fun syms nv =>
        match syms.find? (fun s => s.1 = nv.1) with
        | some _ => syms.map (fun s =>
            if s.1 = nv.1 then (s.1, setInsert s.2 nv.2) else s)
        | none => syms ++ [(nv.1, [nv.2])])
      st.symbols }

/-- Modelled from the spec: the deduplicating hash table (`GdbHashTab`)
and the string pool are external components declared outside these
sources; the table's capacity is its symbol count and the pool's size the
total of the deduplicated names with their NUL terminators. -/
def symTabCapacity (st : State) : Nat := st.symbols.length

/-- Modelled from the spec: see `symTabCapacity`. -/
def stringPoolSize (st : State) : Nat :=
  st.symbols.foldl (fun n s => n + s.1.length + 1) 0

/-- The total size of the CU vectors in the constant pool: one 32-bit
count plus one 32-bit value per element, per vector. -/
def cuVectorsSize (st : State) : Nat :=
  st.symbols.foldl (fun n s => n + 4 * (s.2.length + 1)) 0

/-- `GdbIndexSection::finalizeContents`: guarded by `Finalized`; reads the
DWARF of every live `.debug_info` section and computes the running
sub-table offsets. -/
def finalizeContents (st : State) : State :=
  if st.finalized then st
  else
    let st1 := st.inputs.foldl readDwarf { st with finalized := true }
    let cuTypes := cuListOffset + st1.compilationUnits.length * 16
    let symTab := cuTypes + st1.addressArea.length * 20
    let constantPool := symTab + symTabCapacity st1 * 8
    { st1 with
      cuTypesOffset := cuTypes
      symTabOffset := symTab
      constantPoolOffset := constantPool
      stringPoolOffset := constantPool + cuVectorsSize st1 }

/-- `GdbIndexSection::getSize`: finalizes on demand through a
`const_cast`, then reports `StringPoolOffset + StringPool.getSize()`. -/
def getSize (st : State) : Nat × State :=
  let st' := finalizeContents st
  (st'.stringPoolOffset + stringPoolSize st', st')

end Lld.GdbIndex

namespace Lld.BuildId

/-- `BuildIdKind`. -/
inductive Kind
  | fast
  | md5
  | sha1
  | uuid
  | hexstring
deriving Repr, DecidableEq

/-- A diagnostic: `error()` records the message and lets the link
continue; `fatal()` aborts the link immediately; `warn()` is advisory. -/
inductive Diag
  | recoverable (msg : String)
  | fatalAbort (msg : String)
  | advisory (msg : String)
deriving Repr, DecidableEq

/-- Whether a list of diagnostics contains an aborting one. -/
def aborts (ds : List Diag) : Bool :=
  ds.any (fun d => match d with | .fatalAbort _ => true | _ => false)

/-- `split(Arr, ChunkSize)`: full chunks while more than `ChunkSize` bytes
remain, then the (non-empty) remainder.  (The source is only called with
`ChunkSize = 1 MiB`; a zero chunk size would not terminate there either,
so it is mapped to the no-split case.) -/
def splitChunks (chunkSize : Nat) (arr : List Nat) : List (List Nat) :=
  if _h : chunkSize = 0 ∨ arr.length ≤ chunkSize then
    if arr.isEmpty then [] else [arr]
  else
    arr.take chunkSize :: splitChunks chunkSize (arr.drop chunkSize)
termination_by arr.length
decreasing_by
  simp only [List.length_drop]
  omega

/-- `BuildIdSection::computeHash`: hash each 1 MiB chunk, then hash the
concatenation of the chunk hashes.  The hash functions themselves are
external (`xxHash64`, `MD5`, `SHA1`). -/
def computeHash (hashFn : List Nat → List Nat) (data : List Nat) :
    List Nat :=
  hashFn (((splitChunks (1024 * 1024) data).map hashFn).flatten)

/-- The external hash primitives and entropy source feeding
`writeBuildId`; `entropyFails` is `getRandomBytes` returning an error. -/
structure Ext where
  xxHash64 : List Nat → List Nat
  md5 : List Nat → List Nat
  sha1 : List Nat → List Nat
  randomBytes : List Nat
  entropyFails : Bool

/-- `BuildIdSection::writeBuildId`: the diagnostics produced and the
resulting build-id buffer contents (`hashBuf` is whatever the buffer held
before, left in place when the entropy source fails). -/
def writeBuildId (kind : Kind) (ext : Ext) (hexVector : List Nat)
    (buf hashBuf : List Nat) : List Diag × List Nat :=
  match kind with
  | .fast => ([], computeHash ext.xxHash64 buf)
  | .md5 => ([], computeHash ext.md5 buf)
  | .sha1 => ([], computeHash ext.sha1 buf)
  | .uuid =>
      if ext.entropyFails then
        ([Diag.recoverable "entropy source failure"], hashBuf)
      else ([], ext.randomBytes)
  | .hexstring => ([], hexVector)

end Lld.BuildId

namespace Lld.Cheri

/-- `SymbolBody::kind()` restricted to the cases
`CheriCapRelocsSection::processSection` distinguishes for the target. -/
inductive SymKind
  | definedRegular
  | definedCommon
  | shared
  | otherKind
deriving Repr, DecidableEq

/-- The target symbol of one `__cap_relocs` record: its kind, whether it
is undefined, and whether it is preemptible (the latter is read by a
commented-out assignment only). -/
structure TargetSym where
  kind : SymKind
  undef : Bool
  preempt : Bool
deriving Repr, DecidableEq

/-- The configuration bits `processSection` reads per record. -/
structure Cfg where
  pic : Bool
  pie : Bool
  static : Bool
  allowUndefinedCapRelocs : Bool
deriving Repr, DecidableEq

/-- The per-record decision of `CheriCapRelocsSection::processSection`:
`none` when the record is skipped (`continue` after a diagnostic), else
`some (locNeedsDynReloc, targetNeedsDynReloc)` — a dynamic RELATIVE
relocation is added for the location slot (offset +0) iff the first flag
holds and for the target slot (offset +8) iff the second does.
`locIsDefinedRegular` mirrors the `dyn_cast<DefinedRegular>(LocationSym)`
test (other location kinds are errors). -/
def processRecord (cfg : Cfg) (locIsDefinedRegular : Bool)
    (target : TargetSym) : Option (Bool × Bool) :=
  if ¬ locIsDefinedRegular then none
  else if target.undef then none
  else
    let step : Option Bool :=
      match target.kind with
      | .definedRegular => some false
      | .definedCommon => some false
      | .shared => if cfg.static then none else some true
      | .otherKind => none
    match step with
    | none => none
    | some targetNeeds =>
        some (cfg.pic || cfg.pie, targetNeeds || cfg.pic || cfg.pie)

end Lld.Cheri

namespace Lld.Claims

open Lld.MipsGot Lld.SymTab Lld.GnuHash

/-- Configuration for literal test link E-like inputs: 64-bit, the default
`MipsGotSize` of 0x10000, non-PIC, two header entries. -/
def c7Cfg : Lld.MipsGot.Cfg := ⟨8, 0x10000, false, 2⟩

/-- Symbols 1 and 2 are the two local symbols, symbol 3 the preemptible
global `p`. -/
def c7Env : Lld.MipsGot.Env := ⟨fun s => decide (s = 3), fun _ => 0⟩

/-- The output section `.data` of size 0x30000. -/
def c7Data : Lld.MipsGot.OutSec := ⟨0, 0x30000, 0x10000⟩

/-- One input object referencing `.data` through page relocations, two
local16 entries and one preemptible global. -/
def c7Input : List Lld.MipsGot.FileGot :=
  [{ fileId := 1, pageIndexMap := [(c7Data, 0)],
     local16 := [((1, 0), 0), ((2, 0), 0)], global := [(3, 0)] }]

/-- A link with word size 4 and `MipsGotSize` 8 whose only object holds
three reloc-only entries (three preemptible symbols referenced by `R_ABS`
relocations). -/
def c1Cfg : Lld.MipsGot.Cfg := ⟨4, 8, false, 2⟩

/-- Every symbol preemptible. -/
def c1Env : Lld.MipsGot.Env := ⟨fun _ => true, fun _ => 0⟩

/-- The single source GOT carrying the three reloc-only entries. -/
def c1Input : List Lld.MipsGot.FileGot :=
  [{ fileId := 1, relocs := [(1, 0), (2, 0), (3, 0)] }]

/-- A PIC link, word size 4: symbol 1 is a preemptible TLS symbol at VA
0x1000, symbol 2 a non-preemptible one at VA 0x9000. -/
def c5Cfg : Lld.MipsGot.Cfg := ⟨4, 0x10000, true, 2⟩

/-- See `c5Cfg`. -/
def c5Env : Lld.MipsGot.Env :=
  ⟨fun s => decide (s = 1), fun s => if s = 1 then 0x1000 else 0x9000⟩

/-- One object with a TLS entry for the preemptible symbol 1 and a
dynamic-TLS pair for the non-preemptible symbol 2. -/
def c5Input : List Lld.MipsGot.FileGot :=
  [{ fileId := 1, tls := [(1, 0)], dynTlsSymbols := [(some 2, 0)] }]

/-- The partitions the MIPS GOT of `c5Input` is built into. -/
def c5Gots : List Lld.MipsGot.FileGot := Lld.MipsGot.build c5Cfg c5Env c5Input

/-- The write events of serialising that GOT. -/
def c5Writes : List (Nat × Nat) := Lld.MipsGot.mipsGotWrites c5Cfg c5Env c5Gots

/-- RELA output whose target RELATIVE type code is 3; symbols 1 and 2 are
their own dynsym indices. -/
def c2Cfg : Lld.Reloc.Cfg := ⟨true, 3⟩

/-- See `c2Cfg`. -/
def c2Env : Lld.Reloc.Env := ⟨id, fun _ => 0, fun _ => 0, fun _ o => o, fun _ => 0⟩

/-- Two non-RELATIVE relocations inserted with descending symbol
indices 2, 1. -/
def c2Relocs : List Lld.Reloc.DynamicReloc :=
  [{ type := 5, secId := 0, offsetInSec := 0, useSymVA := false,
     sym := some 2, addend := 0 },
   { type := 5, secId := 0, offsetInSec := 4, useSymVA := false,
     sym := some 1, addend := 0 }]

/-- A defined (hashed) global named `"a"`. -/
def c3Entry : SymbolTableEntry := ⟨⟨1, false, 0, false, [97], false, 0⟩, 1⟩

/-- First finalize of a `.dynsym` holding only `c3Entry`, with a GNU hash
table present. -/
def c3Fin1 : GnuHashState × List SymbolTableEntry :=
  dynsymFinalize true false {} [c3Entry]

/-- Second finalize of the same section, from the state the first one
left behind. -/
def c3Fin2 : GnuHashState × List SymbolTableEntry :=
  dynsymFinalize true false c3Fin1.1 c3Fin1.2

/-- Three defined (hashed) globals `a`, `b`, `c` — scenario C of the
spec. -/
def c4Entries : List SymbolTableEntry :=
  [⟨⟨1, false, 0, false, [97], false, 0⟩, 1⟩,
   ⟨⟨2, false, 0, false, [98], false, 0⟩, 3⟩,
   ⟨⟨3, false, 0, false, [99], false, 0⟩, 5⟩]

end Lld.Claims


namespace Lld

theorem mvInsert_length_le [DecidableEq K] (m : List (K × V)) (e : K × V) :
    m.length ≤ (mvInsert m e).length ∧ (mvInsert m e).length ≤ m.length + 1 := by
  unfold mvInsert
  split <;> simp

theorem mvUnion_length_le [DecidableEq K] (dst src : List (K × V)) :
    dst.length ≤ (mvUnion dst src).length := by
  unfold mvUnion
  induction src generalizing dst with
  | nil => simp
  | cons e rest ih =>
      simp only [List.foldl_cons]
      exact le_trans (mvInsert_length_le dst e).1 (ih (mvInsert dst e))

theorem sInsert_perm (lt : α → α → Bool) (x : α) (l : List α) :
    (sInsert lt x l).Perm (x :: l) := by
  induction l with
  | nil => exact List.Perm.refl _
  | cons y ys ih =>
      unfold sInsert
      split
      · exact ((ih.cons y).trans (List.Perm.swap x y ys))
      · exact List.Perm.refl _

theorem stableSortBy_perm (lt : α → α → Bool) (l : List α) :
    (stableSortBy lt l).Perm l := by
  induction l with
  | nil => exact List.Perm.refl _
  | cons x xs ih =>
      exact (sInsert_perm lt x (stableSortBy lt xs)).trans (ih.cons x)

theorem sInsert_pairwise (lt : α → α → Bool)
    (hAsym : ∀ a b, lt a b = true → lt b a = false)
    (hNegTrans : ∀ a b c, lt b a = false → lt c b = false → lt c a = false)
    (x : α) (l : List α)
    (hl : l.Pairwise (fun a b => lt b a = false)) :
    (sInsert lt x l).Pairwise (fun a b => lt b a = false) := by
  induction l with
  | nil => simp [sInsert]
  | cons y ys ih =>
      rcases List.pairwise_cons.mp hl with ⟨hy, hys⟩
      unfold sInsert
      split
      · rename_i hlt
        refine List.pairwise_cons.mpr ⟨?_, ih hys⟩
        intro z hz
        have hz' : z ∈ x :: ys := (sInsert_perm lt x ys).mem_iff.mp hz
        rcases List.mem_cons.mp hz' with h | h
        · rw [h]
          exact hAsym y x hlt
        · exact hy z h
      · rename_i hlt
        refine List.pairwise_cons.mpr ⟨?_, hl⟩
        intro z hz
        rcases List.mem_cons.mp hz with h | h
        · subst h
          exact Bool.not_eq_true _ ▸ hlt
        · exact hNegTrans x y z (Bool.not_eq_true _ ▸ hlt) (hy z h)

theorem stableSortBy_pairwise (lt : α → α → Bool)
    (hAsym : ∀ a b, lt a b = true → lt b a = false)
    (hNegTrans : ∀ a b c, lt b a = false → lt c b = false → lt c a = false)
    (l : List α) :
    (stableSortBy lt l).Pairwise (fun a b => lt b a = false) := by
  induction l with
  | nil => simp [stableSortBy]
  | cons x xs ih => exact sInsert_pairwise lt hAsym hNegTrans x _ ih

theorem sInsert_filter_key (lt : α → α → Bool) [DecidableEq κ]
    (key : α → κ)
    (hIncomp : ∀ a b, key a = key b → lt a b = false)
    (x : α) (l : List α) (k : κ) :
    (sInsert lt x l).filter (fun a => key a = k) =
      if key x = k then x :: l.filter (fun a => key a = k)
      else l.filter (fun a => key a = k) := by
  induction l with
  | nil =>
      by_cases hx : key x = k <;> simp [sInsert, List.filter, hx]
  | cons y ys ih =>
      unfold sInsert
      split
      · rename_i hlt
        by_cases hx : key x = k
        · have hy : ¬ (key y = k) := by
            intro hyk
            rw [hIncomp y x (hyk.trans hx.symm)] at hlt
            cases hlt
          simp only [List.filter_cons, ih]
          simp [hx, hy]
        · simp only [List.filter_cons, ih]
          simp [hx]
      · by_cases hx : key x = k <;> simp [List.filter_cons, hx]

theorem stableSortBy_filter_key (lt : α → α → Bool) [DecidableEq κ]
    (key : α → κ)
    (hIncomp : ∀ a b, key a = key b → lt a b = false)
    (l : List α) (k : κ) :
    (stableSortBy lt l).filter (fun a => key a = k) =
      l.filter (fun a => key a = k) := by
  induction l with
  | nil => rfl
  | cons x xs ih =>
      unfold stableSortBy
      rw [sInsert_filter_key lt key hIncomp x _ k, ih]
      by_cases hx : key x = k <;> simp [List.filter_cons, hx]

end Lld

namespace Lld.MipsGot

theorem bufGet_foldl_keep (rest : List (Nat × Nat)) (off acc : Nat)
    (h : ∀ p ∈ rest, p.1 ≠ off) :
    rest.foldl (fun a p => if p.1 = off then p.2 else a) acc = acc := by
  induction rest generalizing acc with
  | nil => rfl
  | cons p tail ih =>
      simp only [List.foldl_cons]
      rw [if_neg (h p (List.mem_cons_self p tail))]
      exact ih acc (fun q hq => h q (List.mem_cons_of_mem p hq))

theorem bufGet_of_not_mem (writes : List (Nat × Nat)) (off : Nat)
    (h : ∀ p ∈ writes, p.1 ≠ off) : bufGet writes off = 0 :=
  bufGet_foldl_keep writes off 0 h

theorem bufGet_of_nodup (writes : List (Nat × Nat)) (p : Nat × Nat)
    (hmem : p ∈ writes) (hnd : (writes.map Prod.fst).Nodup) :
    bufGet writes p.1 = p.2 := by
  induction writes with
  | nil => cases hmem
  | cons q rest ih =>
      simp only [List.map_cons, List.nodup_cons] at hnd
      rcases List.mem_cons.mp hmem with h | h
      · subst h
        unfold bufGet
        simp only [List.foldl_cons, if_pos rfl]
        refine bufGet_foldl_keep rest p.1 p.2 ?_
        intro r hr heq
        exact hnd.1 (heq ▸ List.mem_map_of_mem Prod.fst hr)
      · have hne : q.1 ≠ p.1 := by
          intro heq
          exact hnd.1 (heq ▸ List.mem_map_of_mem Prod.fst h)
        unfold bufGet at ih ⊢
        simp only [List.foldl_cons, if_neg hne]
        exact ih h hnd.2

end Lld.MipsGot

namespace Lld.Reloc

theorem compRelocations_iff (cfg : Cfg) (a b : OutRel) :
    compRelocations cfg a b = true ↔
      ((sortKey cfg a).1 < (sortKey cfg b).1 ∨
       ((sortKey cfg a).1 = (sortKey cfg b).1 ∧ a.symIdx < b.symIdx)) := by
  unfold compRelocations sortKey
  by_cases ha : a.type = cfg.relativeRel <;>
    by_cases hb : b.type = cfg.relativeRel <;>
      · simp [ha, hb]
        try omega

theorem compRelocations_asymm (cfg : Cfg) (a b : OutRel)
    (h : compRelocations cfg a b = true) : compRelocations cfg b a = false := by
  rcases h2 : compRelocations cfg b a with _ | _
  · rfl
  · rw [compRelocations_iff] at h h2
    omega

theorem compRelocations_negtrans (cfg : Cfg) (a b c : OutRel)
    (h1 : compRelocations cfg b a = false)
    (h2 : compRelocations cfg c b = false) :
    compRelocations cfg c a = false := by
  rcases h3 : compRelocations cfg c a with _ | _
  · rfl
  · exfalso
    rw [compRelocations_iff] at h3
    have h1' := h1
    have h2' := h2
    rw [← Bool.not_eq_true, compRelocations_iff] at h1' h2'
    omega

theorem compRelocations_incomp (cfg : Cfg) (a b : OutRel)
    (h : sortKey cfg a = sortKey cfg b) : compRelocations cfg a b = false := by
  rcases h3 : compRelocations cfg a b with _ | _
  · rfl
  · exfalso
    rw [compRelocations_iff] at h3
    rw [Prod.ext_iff] at h
    rcases h with ⟨h1, h2⟩
    simp only [sortKey] at h2
    omega

end Lld.Reloc

namespace Lld.SymTab

theorem findIdxAux_eq_some (p : SymbolTableEntry → Bool)
    (l : List SymbolTableEntry) (i : Nat) (hi : i < l.length)
    (hp : p (l.get ⟨i, hi⟩) = true)
    (hbefore : ∀ j (hj : j < i), p (l.get ⟨j, Nat.lt_trans hj hi⟩) = false) :
    ∀ s, l.findIdx? p s = some (s + i) := by
  induction l generalizing i with
  | nil => cases hi
  | cons x xs ih =>
      intro s
      cases i with
      | zero =>
          have hp' : p x = true := hp
          rw [List.findIdx?_cons, if_pos hp']
          simp
      | succ j =>
          have hx : p x = false := hbefore 0 (Nat.succ_pos j)
          rw [List.findIdx?_cons, if_neg (by simp [hx])]
          have := ih j (Nat.lt_of_succ_lt_succ hi) hp
            (fun k hk => hbefore (k + 1) (Nat.succ_lt_succ hk)) (s + 1)
          rw [this]
          congr 1
          omega

/-- C9: a symbol body with no matching entry (same symbol, or — for
section symbols — an entry whose section symbol maps to the same output
section) gets index 0, the null entry, instead of a failure; a present
symbol gets one plus the position of its first matching entry. -/
theorem c9_getSymbolIndex_null_or_position
    (syms : List SymbolTableEntry) (b : SymBody) :
    ((∀ e ∈ syms, entryMatches b e = false) → getSymbolIndex syms b = 0) ∧
    (∀ i, (hi : i < syms.length) →
      entryMatches b (syms.get ⟨i, hi⟩) = true →
      (∀ j (hj : j < i), entryMatches b (syms.get ⟨j, Nat.lt_trans hj hi⟩) = false) →
      getSymbolIndex syms b = i + 1) := by
  constructor
  · intro h
    unfold getSymbolIndex
    rw [List.findIdx?_eq_none_iff.mpr h]
  · intro i hi hp hbefore
    unfold getSymbolIndex
    rw [findIdxAux_eq_some (entryMatches b) syms i hi hp hbefore 0]
    simp

/-- C9 witness: the section symbol 9 (output section 4) is absent from a
one-entry table and resolves to 0; the non-section symbol 1 is present at
position 0 and resolves to 1. -/
theorem c9_getSymbolIndex_witness :
    getSymbolIndex [⟨⟨1, false, 0, false, [], false, 0⟩, 1⟩]
      ⟨9, true, 4, false, [], false, 0⟩ = 0 ∧
    getSymbolIndex [⟨⟨1, false, 0, false, [], false, 0⟩, 1⟩]
      ⟨1, false, 0, false, [], false, 0⟩ = 1 :=
  ⟨(c9_getSymbolIndex_null_or_position
      [⟨⟨1, false, 0, false, [], false, 0⟩, 1⟩]
      ⟨9, true, 4, false, [], false, 0⟩).1 (by decide),
   (c9_getSymbolIndex_null_or_position
      [⟨⟨1, false, 0, false, [], false, 0⟩, 1⟩]
      ⟨1, false, 0, false, [], false, 0⟩).2 0 (by decide) (by decide)
      (fun j hj => absurd hj (Nat.not_lt_zero j))⟩

end Lld.SymTab

namespace Lld.BuildId

/-- C8 counterexample: with build-id kind `uuid` and a failing entropy
source, `writeBuildId` records a recoverable `error` diagnostic and
returns — the link is not aborted (no `fatal`), the buffer is left as it
was.  The claim calls this failure fatal. -/
theorem c8_uuid_entropy_error_counterexample :
    writeBuildId .uuid ⟨fun _ => [], fun _ => [], fun _ => [], [], true⟩
        [] [] [7, 7] =
      ([Diag.recoverable "entropy source failure"], [7, 7]) ∧
    aborts (writeBuildId .uuid
        ⟨fun _ => [], fun _ => [], fun _ => [], [], true⟩ [] [] [7, 7]).1 =
      false :=
  ⟨rfl, rfl⟩

/-- C8 as amended: an entropy-source failure while producing a `uuid`
build-id is reported through the non-fatal `error()` path — the
diagnostic is recorded, processing continues (nothing aborts), and the
build-id bytes are left unset. -/
theorem c8_uuid_entropy_error_recorded (ext : Ext) (hex buf hashBuf : List Nat)
    (h : ext.entropyFails = true) :
    writeBuildId .uuid ext hex buf hashBuf =
      ([Diag.recoverable "entropy source failure"], hashBuf) ∧
    aborts (writeBuildId .uuid ext hex buf hashBuf).1 = false := by
  unfold writeBuildId
  rw [h]
  exact ⟨rfl, rfl⟩

/-- C8 witness. -/
theorem c8_uuid_entropy_error_witness :
    (⟨fun _ => [], fun _ => [], fun _ => [], [], true⟩ : Ext).entropyFails =
      true ∧
    (writeBuildId .uuid ⟨fun _ => [], fun _ => [], fun _ => [], [], true⟩
        [1] [2] [3] =
      ([Diag.recoverable "entropy source failure"], [3]) ∧
    aborts (writeBuildId .uuid
      ⟨fun _ => [], fun _ => [], fun _ => [], [], true⟩ [1] [2] [3]).1 =
      false) :=
  ⟨rfl, c8_uuid_entropy_error_recorded
    ⟨fun _ => [], fun _ => [], fun _ => [], [], true⟩ [1] [2] [3] rfl⟩

end Lld.BuildId

namespace Lld.Cheri

/-- C6 counterexample: a preemptible defined-regular target in a
non-PIC/PIE link is accepted, yet no dynamic relocation is emitted for
either slot — `some (false, false)` — although the claim requires a
target-slot relocation for every preemptible target (the
`TargetNeedsDynReloc = true` assignment under `isPreemptible()` is
commented out in the source). -/
theorem c6_preemptible_target_no_reloc_counterexample :
    processRecord ⟨false, false, false, false⟩ true
      ⟨.definedRegular, false, true⟩ = some (false, false) ∧
    (⟨.definedRegular, false, true⟩ : TargetSym).preempt = true :=
  ⟨rfl, rfl⟩

/-- C6 as amended: for every accepted `__cap_relocs` record, the location
slot (offset +0) gets a dynamic RELATIVE relocation iff the link is
PIC/PIE, and the target slot (offset +8) gets one iff the target is a
shared symbol (in a non-static link) or the link is PIC/PIE; the target's
preemptibility is not consulted. -/
theorem c6_cap_reloc_dyn_flags (cfg : Cfg) (locDR : Bool) (t : TargetSym)
    (res : Bool × Bool) (h : processRecord cfg locDR t = some res) :
    (res.1 = (cfg.pic || cfg.pie)) ∧
    (res.2 = true ↔ (cfg.pic = true ∨ cfg.pie = true ∨ t.kind = .shared)) := by
  unfold processRecord at h
  by_cases hloc : locDR = true
  case neg =>
    rw [if_pos (by simp [hloc])] at h
    cases h
  rw [if_neg (by simp [hloc])] at h
  by_cases hu : t.undef = true
  case pos =>
    rw [if_pos hu] at h
    cases h
  rw [if_neg hu] at h
  rcases hk : t.kind with _ | _ | _ | _ <;> rw [hk] at h
  · simp only [Option.some.injEq] at h
    subst h
    refine ⟨rfl, ?_⟩
    simp [hk]
  · simp only [Option.some.injEq] at h
    subst h
    refine ⟨rfl, ?_⟩
    simp [hk]
  · by_cases hs : cfg.static = true
    · rw [if_pos hs] at h
      cases h
    · rw [if_neg hs] at h
      simp only [Option.some.injEq] at h
      subst h
      refine ⟨rfl, ?_⟩
      simp [hk]
  · cases h

/-- C6 witness: a shared target in a non-PIC, non-static link gets a
target-slot relocation and no location-slot relocation. -/
theorem c6_cap_reloc_dyn_flags_witness :
    processRecord ⟨false, false, false, false⟩ true
        ⟨.shared, false, true⟩ = some (false, true) ∧
    ((false : Bool) = (false || false)) ∧
    ((true : Bool) = true ↔
      (false = true ∨ false = true ∨ SymKind.shared = SymKind.shared)) :=
  ⟨rfl,
   (c6_cap_reloc_dyn_flags ⟨false, false, false, false⟩ true
      ⟨.shared, false, true⟩ (false, true) rfl).1,
   (c6_cap_reloc_dyn_flags ⟨false, false, false, false⟩ true
      ⟨.shared, false, true⟩ (false, true) rfl).2⟩

end Lld.Cheri

namespace Lld.Claims

open Lld.MipsGot

/-- C7 counterexample: in scenario E (one object, two local symbols in
`.data` of size 0x30000, one preemptible global), the code reserves
`(0x30000 + 0xfffe) / 0xffff + 1 = 5` page entries — not 4 — so the
primary partition ends up with 8 entries and the primary GOT's size is
`(header_entries + 8) × word_size`, not `(header_entries + 7) ×
word_size`. -/
theorem c7_page_count_counterexample :
    getMipsPageCount 0x30000 = 5 ∧
    (build c7Cfg c7Env c7Input).map FileGot.getEntriesNum = [8] ∧
    updateAllocSize c7Cfg (build c7Cfg c7Env c7Input) =
      (c7Cfg.headerEntriesNum + 8) * c7Cfg.wordsize ∧
    updateAllocSize c7Cfg (build c7Cfg c7Env c7Input) ≠
      (c7Cfg.headerEntriesNum + 7) * c7Cfg.wordsize := by
  decide

/-- C7 as amended: the partition reserves 5 page entries (four 0xffff
pages covering the section plus one for intersection slack), 2 local16
entries and 1 global entry; no reloc-only entry survives, and the
primary GOT's size is `(header_entries + 8) × word_size`. -/
theorem c7_mips_got_scenario :
    (build c7Cfg c7Env c7Input).map FileGot.getPageEntriesNum = [5] ∧
    (build c7Cfg c7Env c7Input).map (fun g => g.local16.length) = [2] ∧
    (build c7Cfg c7Env c7Input).map (fun g => g.global.length) = [1] ∧
    (build c7Cfg c7Env c7Input).map (fun g => g.relocs.length) = [0] ∧
    updateAllocSize c7Cfg (build c7Cfg c7Env c7Input) =
      (c7Cfg.headerEntriesNum + 8) * c7Cfg.wordsize := by
  decide

end Lld.Claims

namespace Lld.Reloc

/-- C2 counterexample: two non-RELATIVE relocations inserted with symbol
indices 2 then 1.  With `sort=true` the write reorders them to [1, 2] —
the insertion order inside the non-RELATIVE group is *not* kept — and
with `sort=false` nothing is sorted at all: the output keeps insertion
order [2, 1], which is not sorted by symbol index. -/
theorem c2_sort_behaviour_counterexample :
    (writeTo Lld.Claims.c2Cfg Lld.Claims.c2Env true
        Lld.Claims.c2Relocs).map OutRel.symIdx = [1, 2] ∧
    writeTo Lld.Claims.c2Cfg Lld.Claims.c2Env true Lld.Claims.c2Relocs ≠
      Lld.Claims.c2Relocs.map (serialize Lld.Claims.c2Cfg Lld.Claims.c2Env) ∧
    (writeTo Lld.Claims.c2Cfg Lld.Claims.c2Env false
        Lld.Claims.c2Relocs).map OutRel.symIdx = [2, 1] ∧
    ¬ ((writeTo Lld.Claims.c2Cfg Lld.Claims.c2Env false
        Lld.Claims.c2Relocs).map OutRel.symIdx).Pairwise (· ≤ ·) := by
  decide

/-- C2 as amended: with `sort=true` the serialised entries are
stable-sorted under `compRelocations` — the output is a permutation of
the serialised insertion order in which every RELATIVE relocation
precedes every non-RELATIVE one and each group is ordered by ascending
symbol index, insertion order being kept only among entries with the same
(group, symbol index) key; with `sort=false` the entries stay in
insertion order (no sorting by symbol index takes place). -/
theorem c2_reloc_sort (cfg : Cfg) (env : Env) (relocs : List DynamicReloc) :
    ((writeTo cfg env true relocs).Perm
      (relocs.map (serialize cfg env))) ∧
    ((writeTo cfg env true relocs).Pairwise
      (fun a b => compRelocations cfg b a = false)) ∧
    ((writeTo cfg env true relocs).Pairwise
      (fun a b => b.type = cfg.relativeRel → a.type = cfg.relativeRel)) ∧
    (∀ k, (writeTo cfg env true relocs).filter
        (fun r => sortKey cfg r = k) =
      (relocs.map (serialize cfg env)).filter (fun r => sortKey cfg r = k)) ∧
    (writeTo cfg env false relocs = relocs.map (serialize cfg env)) := by
  refine ⟨?_, ?_, ?_, ?_, rfl⟩
  · exact Lld.stableSortBy_perm (compRelocations cfg)
      (relocs.map (serialize cfg env))
  · exact Lld.stableSortBy_pairwise (compRelocations cfg)
      (compRelocations_asymm cfg) (compRelocations_negtrans cfg)
      (relocs.map (serialize cfg env))
  · refine List.Pairwise.imp ?_
      (Lld.stableSortBy_pairwise (compRelocations cfg)
        (compRelocations_asymm cfg) (compRelocations_negtrans cfg)
        (relocs.map (serialize cfg env)))
    intro a b hfalse hb
    by_contra ha
    have : compRelocations cfg b a = true := by
      rw [compRelocations_iff]
      left
      simp [sortKey, hb, ha]
    rw [this] at hfalse
    cases hfalse
  · intro k
    exact Lld.stableSortBy_filter_key (compRelocations cfg) (sortKey cfg)
      (compRelocations_incomp cfg) (relocs.map (serialize cfg env)) k

end Lld.Reloc

namespace Lld.Dyn

theorem dynFinalize_idem (e : Env) (st : State) :
    finalizeContents e (finalizeContents e st) = finalizeContents e st := by
  unfold finalizeContents
  by_cases h : st.size ≠ 0
  · rw [if_pos h, if_pos h]
  · rw [if_neg h]
    have hpos : ((st.entries ++ lateTags e).length + 1) * entsize e ≠ 0 := by
      apply Nat.mul_ne_zero
      · exact Nat.succ_ne_zero _
      · unfold entsize
        split <;> simp
    rw [if_pos (by simpa using hpos)]

end Lld.Dyn

namespace Lld.Merge

theorem mergeFinalize_of_finalized (st : State) (h : st.finalized = true) :
    finalizeContents st = st := by
  unfold finalizeContents
  rw [if_pos h]

theorem mergeFinalize_finalized (st : State) :
    (finalizeContents st).finalized = true := by
  unfold finalizeContents
  by_cases h : st.finalized = true
  · rwa [if_pos h]
  · rw [if_neg h]
    split <;> rfl

theorem mergeFinalize_idem (st : State) :
    finalizeContents (finalizeContents st) = finalizeContents st :=
  mergeFinalize_of_finalized _ (mergeFinalize_finalized st)

end Lld.Merge

namespace Lld.GdbIndex

theorem readDwarf_foldl_finalized (l : List GdbInput) (st : State) :
    (l.foldl readDwarf st).finalized = st.finalized := by
  induction l generalizing st with
  | nil => rfl
  | cons x xs ih =>
      simp only [List.foldl_cons]
      rw [ih]
      rfl

theorem gdbFinalize_of_finalized (st : State) (h : st.finalized = true) :
    finalizeContents st = st := by
  unfold finalizeContents
  rw [if_pos h]

theorem gdbFinalize_finalized (st : State) :
    (finalizeContents st).finalized = true := by
  unfold finalizeContents
  by_cases h : st.finalized = true
  · rwa [if_pos h]
  · rw [if_neg h]
    simp only []
    exact readDwarf_foldl_finalized st.inputs _

theorem gdbFinalize_idem (st : State) :
    finalizeContents (finalizeContents st) = finalizeContents st :=
  gdbFinalize_of_finalized _ (gdbFinalize_finalized st)

end Lld.GdbIndex

namespace Lld.GnuHash

/-- C3 counterexample: a `.dynsym` holding one defined global, with a GNU
hash table present.  A second `finalizeContents` re-runs
`GnuHashTableSection::addSymbols`, which appends the hashed symbol again:
the dynsym entry list grows from 1 to 2 entries (its size from 48 to 72
bytes for ELF64), and the hash table's finalized size grows from 32 to
36 bytes — the second finalize is not a no-op. -/
theorem c3_dynsym_double_finalize_counterexample :
    Lld.Claims.c3Fin1.2.length = 1 ∧
    Lld.Claims.c3Fin2.2.length = 2 ∧
    dynsymSize true Lld.Claims.c3Fin1.2 = 48 ∧
    dynsymSize true Lld.Claims.c3Fin2.2 = 72 ∧
    Lld.Claims.c3Fin1.1.symbols.length = 1 ∧
    Lld.Claims.c3Fin2.1.symbols.length = 2 ∧
    (finalizeContents 8 Lld.Claims.c3Fin1.1).size = 32 ∧
    (finalizeContents 8 Lld.Claims.c3Fin2.1).size = 36 := by
  decide

/-- C3 as amended: finalize is a no-op the second time for the sections
that guard it — the dynamic section (via its `Size != 0` check), the
mergeable-string sections and the GDB index (via their `Finalized`
flags) — but not for the dynamic symbol table when a GNU hash table is
present: there the second call re-appends the hashed symbols to the hash
table and to the dynsym entry list, changing both sections' sizes and
output. -/
theorem c3_finalize_idempotent_where_guarded :
    (∀ (e : Lld.Dyn.Env) (st : Lld.Dyn.State),
      Lld.Dyn.finalizeContents e (Lld.Dyn.finalizeContents e st) =
        Lld.Dyn.finalizeContents e st) ∧
    (∀ st : Lld.Merge.State,
      Lld.Merge.finalizeContents (Lld.Merge.finalizeContents st) =
        Lld.Merge.finalizeContents st) ∧
    (∀ st : Lld.GdbIndex.State,
      Lld.GdbIndex.finalizeContents (Lld.GdbIndex.finalizeContents st) =
        Lld.GdbIndex.finalizeContents st) :=
  ⟨Lld.Dyn.dynFinalize_idem, Lld.Merge.mergeFinalize_idem,
   Lld.GdbIndex.gdbFinalize_idem⟩

end Lld.GnuHash

namespace Lld.Merge

/-- C10: for mergeable string sections and the `.gdb_index` section,
`getSize` finalizes on demand (the state it leaves is exactly the
finalized one), the `Finalized` flag makes a repeated finalize a no-op
(so it runs at most once), and the reported size is the same whether or
not the finalize pass has already reached the section. -/
theorem c10_get_size_finalizes_on_demand :
    (∀ st : State, (getSize st).2 = finalizeContents st) ∧
    (∀ st : State, st.finalized = true → finalizeContents st = st) ∧
    (∀ st : State, (getSize st).1 = (getSize (finalizeContents st)).1) ∧
    (∀ st : Lld.GdbIndex.State,
      (Lld.GdbIndex.getSize st).2 = Lld.GdbIndex.finalizeContents st) ∧
    (∀ st : Lld.GdbIndex.State, st.finalized = true →
      Lld.GdbIndex.finalizeContents st = st) ∧
    (∀ st : Lld.GdbIndex.State,
      (Lld.GdbIndex.getSize st).1 =
        (Lld.GdbIndex.getSize (Lld.GdbIndex.finalizeContents st)).1) := by
  refine ⟨fun st => rfl, mergeFinalize_of_finalized, ?_,
    fun st => rfl, Lld.GdbIndex.gdbFinalize_of_finalized, ?_⟩
  · intro st
    unfold getSize
    rw [mergeFinalize_idem]
  · intro st
    unfold Lld.GdbIndex.getSize
    rw [Lld.GdbIndex.gdbFinalize_idem]

/-- C10 witness: an already finalized empty merge section and gdb index
are left untouched by `finalizeContents`. -/
theorem c10_get_size_finalizes_on_demand_witness :
    (({ sections := [], flagsStrings := false, optimize := 0,
        finalized := true, builder := ⟨[]⟩ } : State).finalized = true ∧
      finalizeContents
        { sections := [], flagsStrings := false, optimize := 0,
          finalized := true, builder := ⟨[]⟩ } =
        { sections := [], flagsStrings := false, optimize := 0,
          finalized := true, builder := ⟨[]⟩ }) ∧
    (({ inputs := [], finalized := true } : Lld.GdbIndex.State).finalized =
        true ∧
      Lld.GdbIndex.finalizeContents { inputs := [], finalized := true } =
        { inputs := [], finalized := true }) :=
  ⟨⟨rfl, c10_get_size_finalizes_on_demand.2.1 _ rfl⟩,
   ⟨rfl, c10_get_size_finalizes_on_demand.2.2.2.2.1 _ rfl⟩⟩

end Lld.Merge

namespace Lld.GnuHash

theorem nextPowerOf2_pos (a : Nat) : 1 ≤ nextPowerOf2 a := by
  simp only [nextPowerOf2]
  omega

theorem find_le_of_descending (l : List Nat)
    (hdesc : l.Pairwise (fun a b => b ≤ a)) (n x : Nat)
    (hfind : l.find? (fun m => m ≤ n) = some x) :
    x ∈ l ∧ x ≤ n ∧ ∀ m ∈ l, m ≤ n → m ≤ x := by
  induction l with
  | nil => cases hfind
  | cons a tail ih =>
      rcases List.pairwise_cons.mp hdesc with ⟨ha, htail⟩
      by_cases hp : a ≤ n
      · rw [List.find?_cons_of_pos tail (by simpa using hp)] at hfind
        have hx : a = x := Option.some.inj hfind
        subst hx
        refine ⟨List.mem_cons_self a tail, hp, ?_⟩
        intro m hm _
        rcases List.mem_cons.mp hm with h | h
        · exact h.le
        · exact ha m h
      · rw [List.find?_cons_of_neg tail (by simpa using hp)] at hfind
        rcases ih htail hfind with ⟨hmem, hle, hmax⟩
        refine ⟨List.mem_cons_of_mem a hmem, hle, ?_⟩
        intro m hm hmn
        rcases List.mem_cons.mp hm with h | h
        · exact absurd (h ▸ hmn) hp
        · exact hmax m h hmn

theorem getBucketSize_spec (n : Nat) (h : 1 ≤ n) :
    getBucketSize n ∈ bucketSizeList ∧ getBucketSize n ≤ n ∧
    ∀ m ∈ bucketSizeList, m ≤ n → m ≤ getBucketSize n := by
  have hsome : ∃ x, bucketSizeList.find? (fun m => m ≤ n) = some x := by
    have : (bucketSizeList.find? (fun m => m ≤ n)).isSome = true := by
      rw [List.find?_isSome]
      exact ⟨1, by decide, by simpa using h⟩
    exact Option.isSome_iff_exists.mp this
  rcases hsome with ⟨x, hx⟩
  have hspec := find_le_of_descending bucketSizeList (by decide) n x hx
  have hval : getBucketSize n = x := by
    unfold getBucketSize
    rw [hx]
  rw [hval]
  exact hspec

theorem length_pos_isEmpty_false (l : List α) (h : 1 ≤ l.length) :
    l.isEmpty = false := by
  cases l with
  | nil => cases h
  | cons x xs => rfl

/-- C4: over `n ≥ 1` hashed (non-undefined) dynamic symbols, the GNU hash
table's finalize computes `maskwords = NextPowerOf2((n − 1) / word_size)`
(which is at least 1); `nbuckets` is the largest element of the fixed
descending prime list that is `≤ n`; and the written `symoffset` equals
`num_dynsym − n`, the dynsym index of the first hashed symbol (one past
the undefined entries).  In particular, for the three defined globals of
scenario C with word_size = 8: `maskwords = 1` and `nbuckets = 3` (and
`symoffset = 1`). -/
theorem c4_gnu_hash_parameters :
    (∀ (wordsize : Nat) (v : List Lld.SymTab.SymbolTableEntry),
      1 ≤ (v.filter (fun e => ¬ e.body.undef)).length →
      (finalizeContents wordsize (addSymbols {} v).1).maskWords =
        nextPowerOf2
          (((v.filter (fun e => ¬ e.body.undef)).length - 1) / wordsize) ∧
      1 ≤ (finalizeContents wordsize (addSymbols {} v).1).maskWords ∧
      (addSymbols {} v).1.nBuckets ∈ bucketSizeList ∧
      (addSymbols {} v).1.nBuckets ≤
        (v.filter (fun e => ¬ e.body.undef)).length ∧
      (∀ m ∈ bucketSizeList,
        m ≤ (v.filter (fun e => ¬ e.body.undef)).length →
        m ≤ (addSymbols {} v).1.nBuckets) ∧
      symOffset (addSymbols {} v).1 (addSymbols {} v).2 =
        Lld.SymTab.getNumSymbols (addSymbols {} v).2 -
          (v.filter (fun e => ¬ e.body.undef)).length ∧
      symOffset (addSymbols {} v).1 (addSymbols {} v).2 =
        (v.filter (fun e => e.body.undef)).length + 1) ∧
    ((finalizeContents 8 (addSymbols {} Lld.Claims.c4Entries).1).maskWords =
        1 ∧
      (addSymbols {} Lld.Claims.c4Entries).1.nBuckets = 3 ∧
      symOffset (addSymbols {} Lld.Claims.c4Entries).1
        (addSymbols {} Lld.Claims.c4Entries).2 = 1) := by
  constructor
  · intro wordsize v h
    have htne : (v.filter (fun e => ¬ e.body.undef)).isEmpty = false :=
      length_pos_isEmpty_false _ h
    have hkey :
        addSymbols {} v =
          (let tail := v.filter (fun e => ¬ e.body.undef)
           let syms := ([] : List GnuEntry) ++
             tail.map (fun e => ⟨e.body, e.strTabOffset, hashGnu e.body.name⟩)
           let nB := getBucketSize syms.length
           let sorted := Lld.stableSortBy
             (fun (L R : GnuEntry) => L.hash % nB < R.hash % nB) syms
           ({ symbols := sorted, nBuckets := nB },
            v.filter (fun e => e.body.undef) ++
              sorted.map (fun e => ⟨e.body, e.strTabOffset⟩))) := by
      unfold addSymbols
      rw [if_neg (by rw [htne]; exact Bool.false_ne_true)]
    rw [hkey]
    dsimp only
    simp only [List.nil_append]
    set tailv := v.filter (fun e => ¬ e.body.undef) with htailv
    set undefv := v.filter (fun e => e.body.undef) with hundefv
    set syms := tailv.map
      (fun e => (⟨e.body, e.strTabOffset, hashGnu e.body.name⟩ : GnuEntry))
      with hsyms
    set nB := getBucketSize syms.length with hnB
    set srt := Lld.stableSortBy
      (fun (L R : GnuEntry) => L.hash % nB < R.hash % nB) syms with hsrt
    have hsymsn : syms.length = tailv.length := by
      rw [hsyms, List.length_map]
    have hlen : srt.length = tailv.length := by
      rw [hsrt, (Lld.stableSortBy_perm _ _).length_eq, hsymsn]
    have hie : srt.isEmpty = false :=
      length_pos_isEmpty_false _ (hlen ▸ h)
    have hbuck := getBucketSize_spec tailv.length h
    refine ⟨?_, ?_, ?_, ?_, ?_, ?_, ?_⟩
    · simp only [finalizeContents, hie, Bool.false_eq_true, if_false]
      rw [hlen]
    · simp only [finalizeContents, hie, Bool.false_eq_true, if_false]
      exact nextPowerOf2_pos _
    · show nB ∈ bucketSizeList
      rw [hnB, hsymsn]
      exact hbuck.1
    · show nB ≤ tailv.length
      rw [hnB, hsymsn]
      exact hbuck.2.1
    · intro m hm hmn
      show m ≤ nB
      rw [hnB, hsymsn]
      exact hbuck.2.2 m hm hmn
    · show Lld.SymTab.getNumSymbols _ - srt.length = _
      rw [hlen]
    · show Lld.SymTab.getNumSymbols
        (undefv ++ srt.map (fun e => ⟨e.body, e.strTabOffset⟩)) -
          srt.length = undefv.length + 1
      unfold Lld.SymTab.getNumSymbols
      rw [List.length_append, List.length_map, hlen]
      omega
  · refine ⟨?_, ?_, ?_⟩ <;> decide

end Lld.GnuHash

namespace Lld.GnuHash

/-- C4 witness: the general law applied to scenario C (three defined
globals, word size 8). -/
theorem c4_gnu_hash_parameters_witness :
    1 ≤ (Lld.Claims.c4Entries.filter (fun e => ¬ e.body.undef)).length ∧
    ((finalizeContents 8 (addSymbols {} Lld.Claims.c4Entries).1).maskWords =
        nextPowerOf2
          (((Lld.Claims.c4Entries.filter
              (fun e => ¬ e.body.undef)).length - 1) / 8) ∧
      1 ≤ (finalizeContents 8 (addSymbols {} Lld.Claims.c4Entries).1).maskWords ∧
      (addSymbols {} Lld.Claims.c4Entries).1.nBuckets ∈ bucketSizeList ∧
      (addSymbols {} Lld.Claims.c4Entries).1.nBuckets ≤
        (Lld.Claims.c4Entries.filter (fun e => ¬ e.body.undef)).length ∧
      (∀ m ∈ bucketSizeList,
        m ≤ (Lld.Claims.c4Entries.filter (fun e => ¬ e.body.undef)).length →
        m ≤ (addSymbols {} Lld.Claims.c4Entries).1.nBuckets) ∧
      symOffset (addSymbols {} Lld.Claims.c4Entries).1
          (addSymbols {} Lld.Claims.c4Entries).2 =
        Lld.SymTab.getNumSymbols (addSymbols {} Lld.Claims.c4Entries).2 -
          (Lld.Claims.c4Entries.filter (fun e => ¬ e.body.undef)).length ∧
      symOffset (addSymbols {} Lld.Claims.c4Entries).1
          (addSymbols {} Lld.Claims.c4Entries).2 =
        (Lld.Claims.c4Entries.filter (fun e => e.body.undef)).length + 1) :=
  ⟨by decide, c4_gnu_hash_parameters.1 8 Lld.Claims.c4Entries (by decide)⟩

end Lld.GnuHash

namespace Lld.MipsGot

theorem tls_write_mem (cfg : Cfg) (env : Env) (isPrim : Bool) (g : FileGot)
    (p : Nat × Nat) (hp : p ∈ g.tls) :
    (p.2 * cfg.wordsize, tlsSlotValue cfg env p.1) ∈
      gotWrites cfg env isPrim g := by
  unfold gotWrites
  dsimp only
  refine List.mem_append.mpr (Or.inl ?_)
  refine List.mem_append.mpr (Or.inr ?_)
  exact List.mem_map_of_mem _ hp

theorem dynTls_write_mem (cfg : Cfg) (env : Env) (isPrim : Bool)
    (g : FileGot) (p : Option Nat × Nat) (hp : p ∈ g.dynTlsSymbols)
    (x : Nat × Nat) (hx : x ∈ dynTlsSlotWrites cfg env p) :
    x ∈ gotWrites cfg env isPrim g := by
  unfold gotWrites
  dsimp only
  exact List.mem_append.mpr (Or.inr (List.mem_flatMap.mpr ⟨p, hp, hx⟩))

theorem mem_mipsGotWrites (cfg : Cfg) (env : Env) (gots : List FileGot)
    (g : FileGot) (hg : g ∈ gots) (x : Nat × Nat)
    (hx : ∀ isPrim, x ∈ gotWrites cfg env isPrim g) :
    x ∈ mipsGotWrites cfg env gots := by
  cases gots with
  | nil => cases hg
  | cons prim rest =>
      unfold mipsGotWrites
      dsimp only
      rcases List.mem_cons.mp hg with h | h
      · refine List.mem_append.mpr (Or.inl ?_)
        refine List.mem_append.mpr (Or.inr ?_)
        rw [← h]
        exact hx true
      · refine List.mem_append.mpr (Or.inr ?_)
        exact List.mem_flatten.mpr
          ⟨gotWrites cfg env false g, List.mem_map_of_mem _ h, hx false⟩

/-- C5 as amended, for any GOT state whose write events target pairwise
distinct offsets (as those produced by `build` do): every TLS slot holds
`tlsSlotValue` — the symbol's VA when the symbol is preemptible (left for
the dynamic relocation to adjust; for shared symbols the VA is zero), and
VA − 0x7000 for static TLS; a non-preemptible dynamic-TLS pair holds
(1, VA − 0x8000) regardless of PIC; the reserved module-index slot holds
1 exactly when the link is not PIC; and any slot no event targets reads
zero. -/
theorem c5_mips_got_tls_slots (cfg : Cfg) (env : Env) (gots : List FileGot)
    (hnd : ((mipsGotWrites cfg env gots).map Prod.fst).Nodup) :
    (∀ g ∈ gots, ∀ p ∈ g.tls,
      bufGet (mipsGotWrites cfg env gots) (p.2 * cfg.wordsize) =
        tlsSlotValue cfg env p.1) ∧
    (∀ g ∈ gots, ∀ p ∈ g.dynTlsSymbols, ∀ s, p.1 = some s →
      env.preempt s = false →
      bufGet (mipsGotWrites cfg env gots) (p.2 * cfg.wordsize) = 1 ∧
      bufGet (mipsGotWrites cfg env gots) ((p.2 + 1) * cfg.wordsize) =
        truncWord cfg.wordsize
          ((getVA env s 0 + 2 ^ 64 - 0x8000) % 2 ^ 64)) ∧
    (∀ g ∈ gots, ∀ p ∈ g.dynTlsSymbols, p.1 = none → cfg.pic = false →
      bufGet (mipsGotWrites cfg env gots) (p.2 * cfg.wordsize) = 1) ∧
    (∀ off, (∀ w ∈ mipsGotWrites cfg env gots, w.1 ≠ off) →
      bufGet (mipsGotWrites cfg env gots) off = 0) := by
  refine ⟨?_, ?_, ?_, ?_⟩
  · intro g hg p hp
    exact bufGet_of_nodup _ (p.2 * cfg.wordsize, tlsSlotValue cfg env p.1)
      (mem_mipsGotWrites cfg env gots g hg _
        (fun isPrim => tls_write_mem cfg env isPrim g p hp)) hnd
  · intro g hg p hp s hs hpre
    have hslots : dynTlsSlotWrites cfg env p =
        [(p.2 * cfg.wordsize, 1),
         ((p.2 + 1) * cfg.wordsize,
          truncWord cfg.wordsize
            ((getVA env s 0 + 2 ^ 64 - 0x8000) % 2 ^ 64))] := by
      unfold dynTlsSlotWrites
      rw [hs]
      simp [hpre]
    constructor
    · exact bufGet_of_nodup _ (p.2 * cfg.wordsize, 1)
        (mem_mipsGotWrites cfg env gots g hg _
          (fun isPrim => dynTls_write_mem cfg env isPrim g p hp _
            (by rw [hslots]; exact List.mem_cons_self _ _))) hnd
    · exact bufGet_of_nodup _
        ((p.2 + 1) * cfg.wordsize,
         truncWord cfg.wordsize ((getVA env s 0 + 2 ^ 64 - 0x8000) % 2 ^ 64))
        (mem_mipsGotWrites cfg env gots g hg _
          (fun isPrim => dynTls_write_mem cfg env isPrim g p hp _
            (by rw [hslots]; exact
              List.mem_cons_of_mem _ (List.mem_cons_self _ _)))) hnd
  · intro g hg p hp hnone hpic
    have hslots : dynTlsSlotWrites cfg env p = [(p.2 * cfg.wordsize, 1)] := by
      unfold dynTlsSlotWrites
      rw [hnone]
      simp [hpic]
    exact bufGet_of_nodup _ (p.2 * cfg.wordsize, 1)
      (mem_mipsGotWrites cfg env gots g hg _
        (fun isPrim => dynTls_write_mem cfg env isPrim g p hp _
          (by rw [hslots]; exact List.mem_cons_self _ _))) hnd
  · intro off hoff
    exact bufGet_of_not_mem _ off hoff

/-- C5 counterexample: in a PIC link, the TLS slot of the preemptible
symbol 1 (VA 0x1000) holds 0x1000 — not zero as the claim states — and
the module-index slot of the dynamic-TLS pair of the non-preemptible
symbol 2 holds 1 although the link is PIC (the claim allows 1 only for
non-PIC local-exec). -/
theorem c5_tls_written_va_counterexample :
    Lld.Claims.c5Env.preempt 1 = true ∧
    (build Lld.Claims.c5Cfg Lld.Claims.c5Env Lld.Claims.c5Input).map
      (fun g => g.tls) = [[(1, 2)]] ∧
    bufGet Lld.Claims.c5Writes (2 * Lld.Claims.c5Cfg.wordsize) = 0x1000 ∧
    (0x1000 : Nat) ≠ 0 ∧
    Lld.Claims.c5Cfg.pic = true ∧
    Lld.Claims.c5Env.preempt 2 = false ∧
    (build Lld.Claims.c5Cfg Lld.Claims.c5Env Lld.Claims.c5Input).map
      (fun g => g.dynTlsSymbols) = [[(some 2, 3)]] ∧
    bufGet Lld.Claims.c5Writes (3 * Lld.Claims.c5Cfg.wordsize) = 1 := by
  decide

/-- C5 witness: the amended law applied to the built GOT of the
counterexample link. -/
theorem c5_mips_got_tls_slots_witness :
    ((mipsGotWrites Lld.Claims.c5Cfg Lld.Claims.c5Env
        Lld.Claims.c5Gots).map Prod.fst).Nodup ∧
    bufGet (mipsGotWrites Lld.Claims.c5Cfg Lld.Claims.c5Env
        Lld.Claims.c5Gots) (2 * Lld.Claims.c5Cfg.wordsize) =
      tlsSlotValue Lld.Claims.c5Cfg Lld.Claims.c5Env 1 :=
  ⟨by decide,
   (c5_mips_got_tls_slots Lld.Claims.c5Cfg Lld.Claims.c5Env
      Lld.Claims.c5Gots (by decide)).1
     { fileId := 0, startIndex := 0, pageIndexMap := [], local16 := [],
       local32 := [], global := [], relocs := [], tls := [(1, 2)],
       dynTlsSymbols := [(some 2, 3)] }
     (by decide) (1, 2) (by decide)⟩

end Lld.MipsGot

namespace Lld.MipsGot

theorem foldl_pageCount_of_keys (l₁ l₂ : List (OutSec × Nat))
    (h : l₁.map Prod.fst = l₂.map Prod.fst) (a : Nat) :
    l₁.foldl (fun n p => n + getMipsPageCount p.1.size) a =
      l₂.foldl (fun n p => n + getMipsPageCount p.1.size) a := by
  induction l₁ generalizing l₂ a with
  | nil =>
      cases l₂ with
      | nil => rfl
      | cons q qs => cases h
  | cons p ps ih =>
      cases l₂ with
      | nil => cases h
      | cons q qs =>
          simp only [List.map_cons, List.cons.injEq] at h
          simp only [List.foldl_cons, h.1]
          exact ih qs h.2 _

theorem getPageEntriesNum_of_keys (g h : FileGot)
    (hk : g.pageIndexMap.map Prod.fst = h.pageIndexMap.map Prod.fst) :
    g.getPageEntriesNum = h.getPageEntriesNum :=
  foldl_pageCount_of_keys _ _ hk 0

theorem cntLe_refl (g : FileGot) : cntLe g g :=
  ⟨rfl, rfl, rfl, le_refl _, rfl, rfl⟩

theorem cntLe_trans (g h k : FileGot) (h₁ : cntLe g h) (h₂ : cntLe h k) :
    cntLe g k := by
  obtain ⟨a1, a2, a3, a4, a5, a6⟩ := h₁
  obtain ⟨b1, b2, b3, b4, b5, b6⟩ := h₂
  exact ⟨a1.trans b1, a2.trans b2, a3.trans b3, a4.trans b4, a5.trans b5,
    a6.trans b6⟩

theorem getIndexEntriesNum_le_of_cntLe (g h : FileGot) (hle : cntLe g h) :
    g.getIndexEntriesNum ≤ h.getIndexEntriesNum := by
  obtain ⟨h1, h2, h3, h4, h5, h6⟩ := hle
  have hp := getPageEntriesNum_of_keys g h h1
  unfold FileGot.getIndexEntriesNum
  have htls : (g.tls ≠ [] ∨ g.dynTlsSymbols ≠ []) ↔
      (h.tls ≠ [] ∨ h.dynTlsSymbols ≠ []) := by
    rw [← List.length_pos_iff_ne_nil, ← List.length_pos_iff_ne_nil,
      ← List.length_pos_iff_ne_nil (l := h.tls),
      ← List.length_pos_iff_ne_nil (l := h.dynTlsSymbols), h5, h6]
  by_cases hc : g.tls ≠ [] ∨ g.dynTlsSymbols ≠ []
  · rw [if_pos hc, if_pos (htls.mp hc)]
    omega
  · rw [if_neg hc, if_neg (fun hx => hc (htls.mpr hx))]
    omega

theorem boundOK_of_cntLe (cfg : Cfg) (prim : Bool) (g h : FileGot)
    (hle : cntLe g h) (hb : boundOK cfg prim h) : boundOK cfg prim g := by
  unfold boundOK at hb ⊢
  have := getIndexEntriesNum_le_of_cntLe g h hle
  calc ((if prim then cfg.headerEntriesNum else 0) + g.getIndexEntriesNum) *
        cfg.wordsize
      ≤ ((if prim then cfg.headerEntriesNum else 0) + h.getIndexEntriesNum) *
        cfg.wordsize := Nat.mul_le_mul_right _ (by omega)
    _ ≤ cfg.mipsGotSize := hb

theorem reduceRelocs_cntLe (g : FileGot) : cntLe (reduceRelocs g) g :=
  ⟨rfl, rfl, rfl, List.length_filter_le _ _, rfl, rfl⟩

theorem clearRelocs_cntLe (g : FileGot) : cntLe (clearRelocs g) g :=
  ⟨rfl, rfl, rfl, Nat.zero_le _, rfl, rfl⟩

theorem assignSeq_map_fst (step : K → Nat) (l : List (K × Nat)) (i : Nat) :
    ((assignSeq step l i).1).map Prod.fst = l.map Prod.fst := by
  induction l generalizing i with
  | nil => rfl
  | cons p rest ih =>
      unfold assignSeq
      simp only [List.map_cons]
      rw [ih]

theorem assignSeq_length (step : K → Nat) (l : List (K × Nat)) (i : Nat) :
    ((assignSeq step l i).1).length = l.length := by
  have := assignSeq_map_fst step l i
  have h1 := congrArg List.length this
  simpa using h1

theorem assignGot_cntLe (isPrim : Bool) (g : FileGot) (i : Nat) :
    cntLe (assignGot isPrim g i).1 g := by
  unfold assignGot
  dsimp only
  exact ⟨assignSeq_map_fst _ _ _, assignSeq_length _ _ _,
    assignSeq_length _ _ _, le_of_eq (assignSeq_length _ _ _),
    assignSeq_length _ _ _, assignSeq_length _ _ _⟩

theorem assignLoop_length (isPrim : Bool) (i : Nat) (l : List FileGot) :
    (assignLoop isPrim i l).length = l.length := by
  induction l generalizing isPrim i with
  | nil => rfl
  | cons g rest ih =>
      unfold assignLoop
      simp only [List.length_cons]
      rw [ih]

theorem assignLoop_get_cntLe (isPrim : Bool) (i : Nat) (l : List FileGot)
    (j : Nat) (hj : j < l.length) :
    cntLe ((assignLoop isPrim i l).get
        ⟨j, by rw [assignLoop_length]; exact hj⟩)
      (l.get ⟨j, hj⟩) := by
  induction l generalizing isPrim i j with
  | nil => cases hj
  | cons g rest ih =>
      cases j with
      | zero => exact assignGot_cntLe isPrim g i
      | succ k => exact ih _ _ k (Nat.lt_of_succ_lt_succ hj)

theorem tryMergeGots_bound (cfg : Cfg) (dst src : FileGot) (prim : Bool)
    (merged : FileGot) (h : tryMergeGots cfg dst src prim = some merged) :
    boundOK cfg prim merged := by
  unfold tryMergeGots at h
  dsimp only at h
  by_cases hc : ((if prim then cfg.headerEntriesNum else 0) +
      FileGot.getIndexEntriesNum
        { dst with
          pageIndexMap := mvUnion dst.pageIndexMap src.pageIndexMap
          local16 := mvUnion dst.local16 src.local16
          global := mvUnion dst.global src.global
          relocs := mvUnion dst.relocs src.relocs
          tls := mvUnion dst.tls src.tls
          dynTlsSymbols := mvUnion dst.dynTlsSymbols src.dynTlsSymbols }) *
      cfg.wordsize > cfg.mipsGotSize
  · rw [if_pos hc] at h
    cases h
  · rw [if_neg hc] at h
    have hm := Option.some.inj h
    unfold boundOK
    rw [← hm]
    omega

end Lld.MipsGot

namespace Lld.MipsGot

theorem isEmpty_eq_decide_length (l : List α) :
    l.isEmpty = decide (l.length = 0) := by
  cases l <;> rfl

theorem mergeLoop_spec (cfg : Cfg) (seed : FileGot)
    (srcsAll : List FileGot) :
    ∀ (rem done : List FileGot) (cur : FileGot),
      (∀ j (hj : j < done.length),
        boundOK cfg (decide (j = 0)) done[j] ∨
        done[j] = seed ∨ done[j] ∈ srcsAll) →
      (boundOK cfg done.isEmpty cur ∨ cur = seed ∨ cur ∈ srcsAll) →
      (∀ s ∈ rem, s ∈ srcsAll) →
      ∀ j (hj : j < (mergeLoop cfg done cur rem).length),
        boundOK cfg (decide (j = 0)) (mergeLoop cfg done cur rem)[j] ∨
        (mergeLoop cfg done cur rem)[j] = seed ∨
        (mergeLoop cfg done cur rem)[j] ∈ srcsAll := by
  intro rem
  induction rem with
  | nil =>
      intro done cur hdone hcur hrem j hj
      have heq : mergeLoop cfg done cur [] = done ++ [cur] := by
        unfold mergeLoop
        rfl
      revert hj
      rw [heq]
      intro hj
      by_cases hlt : j < done.length
      · rw [List.getElem_append_left hlt]
        exact hdone j hlt
      · have hlen : j = done.length := by
          simp only [List.length_append, List.length_cons,
            List.length_nil] at hj
          omega
        have hsub : j - done.length = 0 := by omega
        have hget : (done ++ [cur])[j] = cur := by
          rw [List.getElem_append_right (le_of_eq hlen.symm)]
          simp [hsub]
        rw [hget]
        have hflag : decide (j = 0) = done.isEmpty := by
          rw [isEmpty_eq_decide_length, hlen]
        rw [hflag]
        exact hcur
  | cons src rest ih =>
      intro done cur hdone hcur hrem j hj
      rcases htry : tryMergeGots cfg cur src done.isEmpty with _ | merged
      · have heq : mergeLoop cfg done cur (src :: rest) =
            mergeLoop cfg (done ++ [cur]) src rest := by
          conv_lhs => simp only [mergeLoop]
          rw [htry]
        revert hj
        rw [heq]
        intro hj
        refine ih (done ++ [cur]) src ?_ ?_
          (fun s hs => hrem s (List.mem_cons_of_mem _ hs)) j hj
        · intro k hk
          by_cases hlt : k < done.length
          · rw [List.getElem_append_left hlt]
            exact hdone k hlt
          · have hlen : k = done.length := by
              simp only [List.length_append, List.length_cons,
                List.length_nil] at hk
              omega
            have hsub : k - done.length = 0 := by omega
            have hget : (done ++ [cur])[k] = cur := by
              rw [List.getElem_append_right (le_of_eq hlen.symm)]
              simp [hsub]
            rw [hget]
            have hflag : decide (k = 0) = done.isEmpty := by
              rw [isEmpty_eq_decide_length, hlen]
            rw [hflag]
            exact hcur
        · exact Or.inr (Or.inr (hrem src (List.mem_cons_self _ _)))
      · have heq : mergeLoop cfg done cur (src :: rest) =
            mergeLoop cfg done merged rest := by
          conv_lhs => simp only [mergeLoop]
          rw [htry]
        revert hj
        rw [heq]
        intro hj
        exact ih done merged hdone
          (Or.inl (tryMergeGots_bound cfg cur src done.isEmpty merged htry))
          (fun s hs => hrem s (List.mem_cons_of_mem _ hs)) j hj

end Lld.MipsGot

namespace Lld.MipsGot

/-- C1 as amended: after `build`, every partition either satisfies the
bound `tryMergeGots` enforces — header entries (primary only) plus the
16-bit-index entry count (which omits reloc-only entries when no TLS
entries follow them) within `MipsGotSize` — or its entries descend
unmerged from the collected reloc-only seed of the primary or from a
single source GOT (a source too large to merge becomes a partition
without any check).  The total entry count of a partition is therefore
not bounded by `MipsGotSize` in general. -/
theorem c1_mips_got_partition_bound (cfg : Cfg) (env : Env)
    (gots : List FileGot) :
    ∀ j, (hj : j < (build cfg env gots).length) →
      boundOK cfg (decide (j = 0)) (build cfg env gots)[j] ∨
      ∃ q, (q = primarySeed (prepGots env gots) ∨ q ∈ prepGots env gots) ∧
        cntLe (build cfg env gots)[j] q := by
  by_cases hgots : gots = []
  · intro j hj
    have hb : build cfg env gots = [] := by
      unfold build
      rw [if_pos hgots]
    rw [hb] at hj
    simp at hj
  · have hbuild : build cfg env gots =
        assignIndices cfg
          (match mergeLoop cfg [] (primarySeed (prepGots env gots))
              ((prepGots env gots).map clearRelocs) with
           | [] => []
           | prim :: rest => reduceRelocs prim :: rest) := by
      unfold build
      rw [if_neg hgots]
    rcases hm : mergeLoop cfg [] (primarySeed (prepGots env gots))
        ((prepGots env gots).map clearRelocs) with _ | ⟨prim, rest⟩
    · intro j hj
      rw [hbuild, hm] at hj
      simp only [assignIndices] at hj
      simp [assignLoop] at hj
    · have hbuild2 : build cfg env gots =
          assignIndices cfg (reduceRelocs prim :: rest) := by
        rw [hbuild, hm]
      intro j hj
      revert hj
      rw [hbuild2]
      intro hj
      have hjr : j < (reduceRelocs prim :: rest).length := by
        have := hj
        unfold assignIndices at this
        rwa [assignLoop_length] at this
      have hjp : j < (prim :: rest).length := by
        simpa using hjr
      have hAssign :
          cntLe (assignIndices cfg (reduceRelocs prim :: rest))[j]
            (reduceRelocs prim :: rest)[j] := by
        have := assignLoop_get_cntLe true cfg.headerEntriesNum
          (reduceRelocs prim :: rest) j hjr
        simpa [assignIndices, List.get_eq_getElem] using this
      have hjm : j < (mergeLoop cfg [] (primarySeed (prepGots env gots))
          ((prepGots env gots).map clearRelocs)).length := by
        rw [hm]
        exact hjp
      have hspec := mergeLoop_spec cfg (primarySeed (prepGots env gots))
        ((prepGots env gots).map clearRelocs)
        ((prepGots env gots).map clearRelocs) []
        (primarySeed (prepGots env gots))
        (fun k hk => absurd hk (by simp))
        (Or.inr (Or.inl rfl)) (fun s hs => hs) j hjm
      have hspec2 : boundOK cfg (decide (j = 0)) (prim :: rest)[j] ∨
          (prim :: rest)[j] = primarySeed (prepGots env gots) ∨
          (prim :: rest)[j] ∈ (prepGots env gots).map clearRelocs := by
        revert hjm hspec
        rw [hm]
        intro hjm hspec
        exact hspec
      have hred : cntLe (reduceRelocs prim :: rest)[j]
          ((prim :: rest)[j]) := by
        cases j with
        | zero => exact reduceRelocs_cntLe prim
        | succ k => exact cntLe_refl _
      have hfin : cntLe (assignIndices cfg (reduceRelocs prim :: rest))[j]
          ((prim :: rest)[j]) :=
        cntLe_trans _ _ _ hAssign hred
      rcases hspec2 with hb | hs | hmem
      · exact Or.inl (boundOK_of_cntLe cfg _ _ _ hfin hb)
      · exact Or.inr ⟨primarySeed (prepGots env gots), Or.inl rfl,
          hs ▸ hfin⟩
      · rcases List.mem_map.mp hmem with ⟨G, hG, hGeq⟩
        exact Or.inr ⟨G, Or.inr hG,
          cntLe_trans _ _ _ (hGeq ▸ hfin) (clearRelocs_cntLe G)⟩

/-- C1 counterexample: word size 4, `MipsGotSize` 8, one input object
whose GOT carries three reloc-only entries and nothing else.  The merge
succeeds (the primary's 16-bit-index count ignores reloc-only entries
when there are no TLS entries), yet the resulting primary partition has 3
entries, `3 × 4 = 12 > 8 = MipsGotSize`, and the primary GOT's total
size is `updateAllocSize = 20 > 8`. -/
theorem c1_primary_exceeds_bound_counterexample :
    (build Lld.Claims.c1Cfg Lld.Claims.c1Env Lld.Claims.c1Input).map
      FileGot.getEntriesNum = [3] ∧
    3 * Lld.Claims.c1Cfg.wordsize > Lld.Claims.c1Cfg.mipsGotSize ∧
    updateAllocSize Lld.Claims.c1Cfg
      (build Lld.Claims.c1Cfg Lld.Claims.c1Env Lld.Claims.c1Input) = 20 ∧
    updateAllocSize Lld.Claims.c1Cfg
      (build Lld.Claims.c1Cfg Lld.Claims.c1Env Lld.Claims.c1Input) >
      Lld.Claims.c1Cfg.mipsGotSize := by
  decide

/-- C1 witness: the amended law applied to the counterexample link, at
the primary partition. -/
theorem c1_mips_got_partition_bound_witness :
    0 < (build Lld.Claims.c1Cfg Lld.Claims.c1Env Lld.Claims.c1Input).length ∧
    (boundOK Lld.Claims.c1Cfg (decide ((0 : Nat) = 0))
      ((build Lld.Claims.c1Cfg Lld.Claims.c1Env
        Lld.Claims.c1Input).get ⟨0, by decide⟩) ∨
    ∃ q, (q = primarySeed (prepGots Lld.Claims.c1Env Lld.Claims.c1Input) ∨
        q ∈ prepGots Lld.Claims.c1Env Lld.Claims.c1Input) ∧
      cntLe ((build Lld.Claims.c1Cfg Lld.Claims.c1Env
        Lld.Claims.c1Input).get ⟨0, by decide⟩) q) :=
  ⟨by decide,
   c1_mips_got_partition_bound Lld.Claims.c1Cfg Lld.Claims.c1Env
     Lld.Claims.c1Input 0 (by decide)⟩

end Lld.MipsGot
